import Mathlib

/-!
Shallow embedding of the memory-graph retrieval engine of MoFox_Bot:
  - src/memory_graph/utils/similarity.py        (cosine_similarity)
  - src/memory_graph/storage/vector_store.py    (VectorStore operations)
  - src/memory_graph/utils/path_expansion.py    (PathScoreExpansion)
  - src/memory_graph/utils/graph_expansion.py   (expand_memories_with_semantic_filter)
  - src/memory_graph/utils/memory_deduplication.py
  - src/memory_graph/config.py                  (validated config constructors)

Python floats are modelled as real numbers; Python dicts keyed by strings as
association lists or functions; the asynchronous wrappers are pure in the
source (they only await deterministic lookups), so they are modelled as
ordinary functions.
-/

set_option maxHeartbeats 1000000

noncomputable section

namespace MemoryGraph

/-! Embedding of similarity.py -/

/-- Dot product of two equal-length vectors, `np.dot` on 1-D arrays.
(On unequal lengths `np.dot` raises; the caller guards that case, see
`cosine_similarity`.) -/
def dot : List ℝ → List ℝ → ℝ
  | [], _ => 0
  | _, [] => 0
  | x :: xs, y :: ys => x * y + dot xs ys

/-- Euclidean norm of a vector, `np.linalg.norm`. -/
def vecNorm (v : List ℝ) : ℝ := Real.sqrt (dot v v)

/-- Clip a scalar into [0, 1], `np.clip(x, 0.0, 1.0)`. -/
def clip01 (x : ℝ) : ℝ := min 1 (max 0 x)

/-- Embeds `cosine_similarity` from similarity.py: compute both norms; if either
is zero return 0.0; then `np.dot` — which raises on a shape mismatch, caught by
the surrounding `except` returning 0.0 — and clip the quotient into [0, 1]. -/
def cosine_similarity (vec1 vec2 : List ℝ) : ℝ :=
  if vecNorm vec1 = 0 ∨ vecNorm vec2 = 0 then 0
  else if vec1.length ≠ vec2.length then 0
  else clip01 (dot vec1 vec2 / (vecNorm vec1 * vecNorm vec2))

/-! Data model shared by the modules (models.py / storage layer).
Timestamps are modelled directly as real-valued day counts. -/

/-- A memory-graph node (`MemoryNode` in models.py): identifier, text content,
node-type tag and an optional embedding.  `has_embedding()` is
`embedding.isSome`. -/
structure NodeM where
  id : String
  content : String := ""
  nodeType : String := ""
  embedding : Option (List ℝ) := none

/-- A typed edge between two nodes (`MemoryEdge` in models.py): endpoints,
edge-type tag (the `.value` string of the enum) and an importance weight. -/
structure EdgeM where
  sourceId : String
  targetId : String
  edgeType : String
  importance : ℝ

/-- A memory (`Memory` in models.py): owning id, its nodes and edges, an
importance score, and its creation time in days. -/
structure MemoryM where
  id : String
  nodes : List NodeM := []
  edges : List EdgeM := []
  importance : ℝ := 0.5
  createdAtDays : ℝ := 0

/-- Metadata dictionary attached to a node in the vector store; only the
`node_type` key is read by the algorithms under verification. -/
structure NodeMetadata where
  nodeType : Option String := none

/-- The record `VectorStore.get_node_by_id` returns: id, metadata dict, and an
optional embedding.  A missing `embedding` key of the Python dict is modelled
as `none`. -/
structure VSNodeData where
  id : String
  metadata : NodeMetadata := {}
  embedding : Option (List ℝ) := none

/-- The vector store seen by the traversal algorithms: a lookup from node id to
the stored record, i.e. the observable behaviour of `get_node_by_id`. -/
def VectorStoreM : Type := String → Option VSNodeData

/-- The node payload stored in `graph_store.graph.nodes`, of which the
expansion algorithms read the owning `memory_ids` (stored in decoded list
form; the JSON-string re-decoding branch of graph_expansion.py handles the
serialized variant of the same data). -/
structure GraphNodeData where
  memoryIds : List String := []

/-- The graph store interface used by the expansion algorithms:
`node_to_memories` index, `get_memory_by_id`, `graph.neighbors`,
`graph.nodes.get`, and the edge-importance lookup
`graph.get_edge_data(u, v).get("importance", 0.5)` (`none` models both a
missing edge record and a raised lookup error, which the source maps to the
0.5 default). -/
structure GraphStoreM where
  nodeToMemories : String → List String
  getMemoryById : String → Option MemoryM
  neighbors : String → List String := fun _ => []
  nodeData : String → Option GraphNodeData := fun _ => none
  edgeImportance : String → String → Option ℝ := fun _ _ => none

/-- Association-list lookup, modelling Python `dict.get`. -/
def assocGet? {α : Type} : List (String × α) → String → Option α
  | [], _ => none
  | (k0, v0) :: rest, k => if k0 = k then some v0 else assocGet? rest k

/-- Association-list overwrite-or-append, modelling Python `dict.__setitem__`
(insertion order preserved, value overwritten in place). -/
def assocSet {α : Type} : List (String × α) → String → α → List (String × α)
  | [], k, v => [(k, v)]
  | (k0, v0) :: rest, k, v =>
    if k0 = k then (k0, v) :: rest else (k0, v0) :: assocSet rest k v

/-! Embedding of storage/vector_store.py.  Each operation wraps one call into
the underlying ChromaDB collection in `try/except`; the model takes the
outcome of that underlying call as an `Except` argument and mirrors what the
wrapper does with it.  (The `RuntimeError` raised when the store was never
initialized happens before the `try` block and is outside these models.) -/

/-- Result shape of `collection.get(ids=[...], include=[metadatas, embeddings])`. -/
structure ChromaGetResult where
  ids : List String := []
  metadatas : List NodeMetadata := []
  embeddings : List (List ℝ) := []

/-- Result shape of `collection.query(...)`, restricted to the first query row. -/
structure ChromaQueryResult where
  ids : List String := []
  distances : List ℝ := []
  metadatas : List NodeMetadata := []

namespace VectorStore

/-- Embeds `VectorStore.add_node`: a node without embedding is skipped with a
warning (normal return); an index-layer failure is logged and re-raised. -/
def add_node (node : NodeM) (indexAdd : Except String Unit) : Except String Unit :=
  match node.embedding with
  | none => .ok ()
  | some _ =>
    match indexAdd with
    | .ok u => .ok u
    | .error e => .error e

/-- Embeds `VectorStore.add_nodes_batch`: nodes lacking embeddings are
filtered out; with no valid nodes the call returns normally; otherwise an
index-layer failure is logged and re-raised. -/
def add_nodes_batch (nodes : List NodeM) (indexAdd : Except String Unit) :
    Except String Unit :=
  match nodes.filter (fun n => n.embedding.isSome) with
  | [] => .ok ()
  | _ :: _ =>
    match indexAdd with
    | .ok u => .ok u
    | .error e => .error e

/-- Embeds `VectorStore.search_similar_nodes`: parse the query result row,
converting each cosine distance to `1 - distance` and keeping entries with
similarity at least `min_similarity`; an index-layer failure is logged and
re-raised. -/
def search_similar_nodes (res : Except String ChromaQueryResult)
    (minSimilarity : ℝ) : Except String (List (String × ℝ × NodeMetadata)) :=
  match res with
  | .error e => .error e
  | .ok r =>
    .ok (((r.ids.zip r.distances).enum).filterMap (fun p =>
      let similarity := 1 - p.2.2
      if minSimilarity ≤ similarity then
        some (p.2.1, similarity,
          if r.metadatas.isEmpty then {} else r.metadatas.getD p.1 {})
      else none))

/-- Embeds `VectorStore.get_node_by_id`: on a successful lookup with a
non-empty id list, build the node record; with an empty id list return
`none`; and — unlike every other operation — on an index-layer failure the
`except` branch logs and returns `none` instead of re-raising. -/
def get_node_by_id (res : Except String ChromaGetResult) : Option VSNodeData :=
  match res with
  | .error _ => none
  | .ok r =>
    match r.ids with
    | [] => none
    | i :: _ =>
      some { id := i,
             metadata := match r.metadatas with | [] => {} | m :: _ => m,
             embedding := match r.embeddings with | [] => none | e :: _ => some e }

/-- Embeds `VectorStore.delete_node`: an index-layer failure is logged and
re-raised; otherwise normal return. -/
def delete_node (indexDelete : Except String Unit) : Except String Unit :=
  match indexDelete with
  | .ok u => .ok u
  | .error e => .error e

/-- Embeds `VectorStore.update_node_embedding`: an index-layer failure is
logged and re-raised; otherwise normal return. -/
def update_node_embedding (indexUpdate : Except String Unit) : Except String Unit :=
  match indexUpdate with
  | .ok u => .ok u
  | .error e => .error e

end VectorStore

/-! Embedding of config.py (the validated constructors) and of the
`PathExpansionConfig` dataclass of path_expansion.py. -/

/-- The `RetrievalConfig` dataclass fields relevant to validation. -/
structure RetrievalConfig where
  vectorWeight : ℝ := 0.4
  graphDistanceWeight : ℝ := 0.2
  importanceWeight : ℝ := 0.2
  recencyWeight : ℝ := 0.2

/-- Embeds `RetrievalConfig.__post_init__`: constructing the dataclass raises
`ValueError` when the four retrieval weights do not sum to 1.0 within 0.01. -/
def mkRetrievalConfig (vw gw iw rw : ℝ) : Except String RetrievalConfig :=
  if 0.01 < |vw + gw + iw + rw - 1.0| then
    .error ( "weight sum must be 1.0" )
  else
    .ok { vectorWeight := vw, graphDistanceWeight := gw,
          importanceWeight := iw, recencyWeight := rw }

/-- The `NodeMergerConfig` dataclass fields relevant to validation. -/
structure NodeMergerConfig where
  similarityThreshold : ℝ := 0.85

/-- Embeds `NodeMergerConfig.__post_init__`: constructing the dataclass raises
`ValueError` when the similarity threshold lies outside [0, 1]. -/
def mkNodeMergerConfig (t : ℝ) : Except String NodeMergerConfig :=
  if 0 ≤ t ∧ t ≤ 1 then .ok { similarityThreshold := t }
  else .error ( "threshold must lie within the unit interval" )

/-- Embeds the `PathExpansionConfig` dataclass of path_expansion.py, default
values included.  The dataclass has no `__post_init__`: no field is validated
at construction time. -/
structure PathExpansionConfig where
  maxHops : Nat := 2
  dampingFactor : ℝ := 0.85
  maxBranchesPerNode : Nat := 10
  pathMergeStrategy : String := "weighted_geometric"
  pruningThreshold : ℝ := 0.9
  highScoreThreshold : ℝ := 0.7
  mediumScoreThreshold : ℝ := 0.4
  maxActivePaths : Nat := 1000
  topPathsRetain : Nat := 500
  edgeTypeWeights : List (String × ℝ) :=
    [ ( "REFERENCE", 1.3), ( "ATTRIBUTE", 1.2), ( "HAS_PROPERTY", 1.2),
      ( "RELATION", 0.9), ( "TEMPORAL", 0.7), ( "DEFAULT", 1.0)]
  finalScoringWeights : List (String × ℝ) :=
    [ ( "path_score", 0.50), ( "importance", 0.30), ( "recency", 0.20)]

/-- The default `PathExpansionConfig()` instance. -/
def defaultPathExpansionConfig : PathExpansionConfig := {}

/-- Embeds constructing a `PathExpansionConfig` with explicit final-scoring
weights and pruning threshold: being a plain dataclass, the constructor
performs no validation and always yields the configuration. -/
def mkPathExpansionConfig (finalWeights : List (String × ℝ))
    (pruning : ℝ) : PathExpansionConfig :=
  { defaultPathExpansionConfig with
    finalScoringWeights := finalWeights, pruningThreshold := pruning }

/-! Embedding of utils/path_expansion.py (`PathScoreExpansion`).

Python `Path` objects are identified by `id()`; the model gives every created
path a fresh numeric `pid` drawn from a counter threaded through the run, and
`parent` pointers become `parentId`.  The ghost field `created` of the run
state records every `Path(...)` construction, so statements about "all paths
produced during a run" can be made.  `merged_from` is recorded as the pids of
the two merged paths. -/

/-- A traversal path (`Path` dataclass): node-id sequence, edge sequence,
score, depth, parent pointer, merge marker. -/
structure PathM where
  pid : Nat
  nodes : List String
  edges : List EdgeM
  score : ℝ
  depth : Nat
  parentId : Option Nat := none
  isMerged : Bool := false
  mergedFrom : List Nat := []

namespace PathExpansion

/-- String key for the default edge-type weight. -/
def kDefault : String := "DEFAULT"

/-- Edge-type multiplier: `config.edge_type_weights.get(t, weights["DEFAULT"])`. -/
def edge_type_weight (cfg : PathExpansionConfig) (t : String) : ℝ :=
  match assocGet? cfg.edgeTypeWeights t with
  | some w => w
  | none => (assocGet? cfg.edgeTypeWeights kDefault).getD 0

/-- Embeds `_get_edge_weight`: edge importance times its edge-type multiplier. -/
def get_edge_weight (cfg : PathExpansionConfig) (e : EdgeM) : ℝ :=
  e.importance * edge_type_weight cfg e.edgeType

/-- Embeds `_get_node_score`: base score is 0.5 when the query embedding is
None; else 0.3 when the node record or its embedding is missing; else the
cosine similarity clipped into [0, 1].  When preferred node types are set and
the node's type is among them, a 20% bonus is added.  (Node types are enum
`.value` strings and hence non-empty, so Python's truthiness test on them is
modelled by the `Option`.) -/
def get_node_score (vs : VectorStoreM) (prefer : List String)
    (q : Option (List ℝ)) (nodeId : String) : ℝ :=
  let nodeData := vs nodeId
  let baseScore : ℝ :=
    match q with
    | none => 0.5
    | some qe =>
      match nodeData with
      | none => 0.3
      | some nd =>
        match nd.embedding with
        | none => 0.3
        | some ne => max 0 (min 1 (cosine_similarity qe ne))
  if prefer ≠ [] then
    match nodeData with
    | some nd =>
      match nd.metadata.nodeType with
      | some t => if t ∈ prefer then baseScore + baseScore * 0.2 else baseScore
      | none => baseScore
    | none => baseScore
  else baseScore

/-- Embeds `_calculate_path_score`: exponentially damped blend of the
propagated score and the fresh node score. -/
def calculate_path_score (cfg : PathExpansionConfig)
    (oldScore edgeWeight nodeScore : ℝ) (depth : Nat) : ℝ :=
  let decay := cfg.dampingFactor ^ depth
  oldScore * edgeWeight * decay + nodeScore * (1 - decay)

/-- Embeds `_calculate_max_branches`: `int(n * 1.5)` above the high threshold,
`n` above the medium threshold, `int(n * 0.5)` otherwise (for the `Nat` field
the float truncations are the floor divisions `3n/2` and `n/2`). -/
def calculate_max_branches (cfg : PathExpansionConfig) (pathScore : ℝ) : Nat :=
  if cfg.highScoreThreshold < pathScore then 3 * cfg.maxBranchesPerNode / 2
  else if cfg.mediumScoreThreshold < pathScore then cfg.maxBranchesPerNode
  else cfg.maxBranchesPerNode / 2

/-- Key of an edge for neighbor-edge deduplication:
`(source_id, target_id, edge_type)`. -/
def edgeKey (e : EdgeM) : String × String × String := (e.sourceId, e.targetId, e.edgeType)

/-- First-occurrence order of the edge keys of a list, mirroring the key
insertion order of the dict comprehension in `_get_sorted_neighbor_edges`. -/
def firstOccKeys : List EdgeM → List (String × String × String)
  | [] => []
  | e :: rest => edgeKey e :: (firstOccKeys rest).filter (fun k => k ≠ edgeKey e)

/-- The value a dict comprehension keeps for a key: the last element with that
key. -/
def lastWithKey (es : List EdgeM) (k : String × String × String) : Option EdgeM :=
  (es.filter (fun e => edgeKey e = k)).getLast?

/-- Deduplicate edges the way the dict comprehension
`{(src, tgt, type): e for e in edges}.values()` does: keys in first-occurrence
order, each carrying the last edge with that key. -/
def dedupEdges (es : List EdgeM) : List EdgeM :=
  (firstOccKeys es).filterMap (lastWithKey es)

/-- Embeds `_get_sorted_neighbor_edges`: collect, over the memories owning the
node, the edges incident to it; deduplicate; sort by edge weight descending
(Python's sort is stable; so is the insertion sort used here). -/
def get_sorted_neighbor_edges (g : GraphStoreM) (cfg : PathExpansionConfig)
    (nodeId : String) : List EdgeM :=
  let edges := ((g.nodeToMemories nodeId).map (fun mid =>
    match g.getMemoryById mid with
    | some mem => mem.edges.filter (fun e => e.sourceId = nodeId ∨ e.targetId = nodeId)
    | none => [])).flatten
  (dedupEdges edges).insertionSort
    (fun a b => get_edge_weight cfg b ≤ get_edge_weight cfg a)

/-- Embeds `_merge_score`: geometric mean with a 1.2 bonus under
`weighted_geometric` (Python `x ** 0.5` on the product of the two
non-negative scores is `Real.sqrt`), max with a 1.3 bonus under `max_bonus`,
arithmetic mean with a 1.15 bonus otherwise. -/
def merge_score (cfg : PathExpansionConfig) (score1 score2 : ℝ) : ℝ :=
  if cfg.pathMergeStrategy = "weighted_geometric" then
    Real.sqrt (score1 * score2) * 1.2
  else if cfg.pathMergeStrategy = "max_bonus" then
    max score1 score2 * 1.3
  else
    (score1 + score2) / 2 * 1.15

/-- Embeds `_try_merge_paths`: scan the existing new-path list for the first
non-merged path ending at the new path's endpoint; if found, build the merged
path (new path's node/edge sequences and parent, merged score, `is_merged`
set) and remove the absorbed path from the list. -/
def try_merge_paths (cfg : PathExpansionConfig) (mergedPid : Nat)
    (newPath : PathM) : List PathM → Option (PathM × List PathM)
  | [] => none
  | e :: rest =>
    match newPath.nodes.getLast? with
    | none => none
    | some endpoint =>
      if e.nodes.getLast? = some endpoint ∧ e.isMerged = false then
        some ({ pid := mergedPid, nodes := newPath.nodes, edges := newPath.edges,
                score := merge_score cfg newPath.score e.score,
                depth := newPath.depth, parentId := newPath.parentId,
                isMerged := true, mergedFrom := [newPath.pid, e.pid] }, rest)
      else
        match try_merge_paths cfg mergedPid newPath rest with
        | some (m, rest2) => some (m, e :: rest2)
        | none => none

/-- The next node reached over an edge from the current node. -/
def otherEndpoint (e : EdgeM) (current : String) : String :=
  if e.sourceId = current then e.targetId else e.sourceId

/-- Embeds the `Path(...)` construction of one extension step of the hop loop:
the new path appends the next node and the edge, its score is the damped
blend at depth `hop + 1`, and its parent is the extended path. -/
def extend_path (cfg : PathExpansionConfig) (vs : VectorStoreM)
    (prefer : List String) (q : Option (List ℝ)) (path : PathM) (edge : EdgeM)
    (nextNode : String) (hop : Nat) (pid : Nat) : PathM :=
  { pid, nodes := path.nodes ++ [nextNode], edges := path.edges ++ [edge],
    score := calculate_path_score cfg path.score (get_edge_weight cfg edge)
      (get_node_score vs prefer q nextNode) (hop + 1),
    depth := hop + 1, parentId := some path.pid }

/-- Context of one `expand_with_path_scoring` call: configuration, the two
stores, the preferred node types and the query embedding. -/
structure ExpandCtx where
  cfg : PathExpansionConfig
  graph : GraphStoreM
  vs : VectorStoreM
  prefer : List String := []
  queryEmbedding : Option (List ℝ) := none

/-- Mutable state of a hop iteration: the list of new paths being built, the
`best_score_to_node` dict, the fresh-pid counter, and the ghost list of every
path constructed so far. -/
structure ExpandState where
  nextPaths : List PathM
  best : List (String × ℝ)
  counter : Nat
  created : List PathM

/-- Embeds the inner `for edge in neighbor_edges[:max_branches]` loop of the
hop loop: skip cycle-forming edges, compute the new score, prune against
`best_score_to_node`, record the best score, construct the new path, attempt
a merge, and stop once `branch_count` reaches `max_branches`. -/
def process_edges (ctx : ExpandCtx) (path : PathM) (current : String)
    (hop : Nat) (maxBranches : Nat) :
    List EdgeM → Nat → ExpandState → ExpandState
  | [], _, st => st
  | edge :: rest, branchCount, st =>
    let nextNode := otherEndpoint edge current
    if nextNode ∈ path.nodes then
      process_edges ctx path current hop maxBranches rest branchCount st
    else
      let newScore := calculate_path_score ctx.cfg path.score
        (get_edge_weight ctx.cfg edge)
        (get_node_score ctx.vs ctx.prefer ctx.queryEmbedding nextNode) (hop + 1)
      let prunedB : Bool :=
        match assocGet? st.best nextNode with
        | some b => decide (newScore < b * ctx.cfg.pruningThreshold)
        | none => false
      if prunedB then
        process_edges ctx path current hop maxBranches rest branchCount st
      else
        let best2 := assocSet st.best nextNode
          (max ((assocGet? st.best nextNode).getD 0) newScore)
        let newPath := extend_path ctx.cfg ctx.vs ctx.prefer ctx.queryEmbedding
          path edge nextNode hop st.counter
        let st2 : ExpandState :=
          match try_merge_paths ctx.cfg (st.counter + 1) newPath st.nextPaths with
          | some (m, rest2) =>
            { nextPaths := rest2 ++ [m], best := best2, counter := st.counter + 2,
              created := st.created ++ [newPath, m] }
          | none =>
            { nextPaths := st.nextPaths ++ [newPath], best := best2,
              counter := st.counter + 1, created := st.created ++ [newPath] }
        if maxBranches ≤ branchCount + 1 then st2
        else process_edges ctx path current hop maxBranches rest (branchCount + 1) st2

/-- Embeds the body of `for path in active_paths`: fetch the sorted neighbor
edges of the path's leaf node, compute the dynamic branch cap from the path's
score, and run the edge loop. -/
def process_path (ctx : ExpandCtx) (hop : Nat) (st : ExpandState)
    (path : PathM) : ExpandState :=
  match path.nodes.getLast? with
  | none => st
  | some current =>
    let neighborEdges := get_sorted_neighbor_edges ctx.graph ctx.cfg current
    let maxBranches := calculate_max_branches ctx.cfg path.score
    process_edges ctx path current hop maxBranches
      (neighborEdges.take maxBranches) 0 st

/-- One hop: run the path loop over all active paths, starting from an empty
new-path list. -/
def process_hop (ctx : ExpandCtx) (hop : Nat) (activePaths : List PathM)
    (best : List (String × ℝ)) (counter : Nat) (created : List PathM) :
    ExpandState :=
  activePaths.foldl (process_path ctx hop)
    { nextPaths := [], best, counter, created }

/-- State carried between hops. -/
structure HopState where
  active : List PathM
  best : List (String × ℝ)
  counter : Nat
  created : List PathM

/-- Embeds the hop loop `for hop in range(max_hops)`: run one hop, truncate to
the top paths when the count exceeds `max_active_paths`, assign the new paths
to `active_paths`, and break early when no new path was produced (note the
assignment happens before the emptiness test, so the break leaves the empty
list as the active set). -/
def hop_loop (ctx : ExpandCtx) : Nat → Nat → HopState → HopState
  | _, 0, hs => hs
  | hop, fuel + 1, hs =>
    let st := process_hop ctx hop hs.active hs.best hs.counter hs.created
    let nextPaths :=
      if ctx.cfg.maxActivePaths < st.nextPaths.length then
        (st.nextPaths.insertionSort (fun a b => b.score ≤ a.score)).take
          ctx.cfg.topPathsRetain
      else st.nextPaths
    if nextPaths.isEmpty then
      { active := nextPaths, best := st.best, counter := st.counter,
        created := st.created }
    else
      hop_loop ctx (hop + 1) fuel
        { active := nextPaths, best := st.best, counter := st.counter,
          created := st.created }

/-- Embeds `_extract_leaf_paths`: from the given list, keep the paths of which
no path in the list is a child (object identity becomes pid identity). -/
def extract_leaf_paths (allPaths : List PathM) : List PathM :=
  allPaths.filter (fun p => decide (∀ q ∈ allPaths, q.parentId ≠ some p.pid))

/-- First-occurrence deduplication, modelling the Python set of memory ids
collected along a path (set iteration order is modelled as first-occurrence
order; the final result is re-sorted by score, so only tie order could ever
observe the difference). -/
def dedupFO : List String → List String
  | [] => []
  | x :: rest => x :: (dedupFO rest).filter (fun y => y ≠ x)

/-- Append a contributing path to the entry of a memory id, inserting the
entry on first contact (dict-of-lists semantics of `_map_paths_to_memories`). -/
def assocAppendPath : List (String × MemoryM × List PathM) → String → MemoryM →
    PathM → List (String × MemoryM × List PathM)
  | [], mid, mem, p => [(mid, mem, [p])]
  | (k, m, ps) :: rest, mid, mem, p =>
    if k = mid then (k, m, ps ++ [p]) :: rest
    else (k, m, ps) :: assocAppendPath rest mid mem p

/-- Embeds `_map_paths_to_memories`: each path contributes itself to every
memory owning any node along it. -/
def map_paths_to_memories (g : GraphStoreM) (paths : List PathM) :
    List (String × MemoryM × List PathM) :=
  paths.foldl (fun acc path =>
    let memIds := dedupFO ((path.nodes.map g.nodeToMemories).flatten)
    memIds.foldl (fun acc2 mid =>
      match g.getMemoryById mid with
      | some mem => assocAppendPath acc2 mid mem path
      | none => acc2) acc) []

/-- Embeds `_aggregate_path_scores`: 40% of the score total plus 60% of the
mean of the top-3 path scores. -/
def aggregate_path_scores (paths : List PathM) : ℝ :=
  if paths.isEmpty then 0
  else
    let total := (paths.map (fun p => p.score)).sum
    let top3 := (paths.insertionSort (fun a b => b.score ≤ a.score)).take 3
    let avgTop :=
      if top3.isEmpty then 0 else (top3.map (fun p => p.score)).sum / top3.length
    total * 0.4 + avgTop * 0.6

/-- Embeds `_calculate_recency`: 30-day half-life decay of the memory age (the
age in days is `now - created_at`; both instants are modelled in days). -/
def calculate_recency (now : ℝ) (mem : MemoryM) : ℝ :=
  let ageDays := now - mem.createdAtDays
  1.0 / (1.0 + ageDays / 30)

/-- String keys of the final-scoring weight dict. -/
def kPathScore : String := "path_score"

/-- String key of the importance weight. -/
def kImportance : String := "importance"

/-- String key of the recency weight. -/
def kRecency : String := "recency"

/-- Whether a memory node's stored type matches a preferred type (the
per-node lookup of the type-bonus step of `_final_scoring`). -/
def node_matches_prefer (vs : VectorStoreM) (prefer : List String)
    (n : NodeM) : Bool :=
  match vs n.id with
  | some nd =>
    match nd.metadata.nodeType with
    | some t => decide (t ∈ prefer)
    | none => false
  | none => false

/-- Embeds `_final_scoring`: per candidate memory, blend aggregated path
score, importance and recency with the configured weights, then add the
preferred-type bonus (up to 10%, proportional to the matched-node ratio). -/
def final_scoring (cfg : PathExpansionConfig) (vs : VectorStoreM)
    (prefer : List String) (now : ℝ)
    (memoryPaths : List (String × MemoryM × List PathM)) :
    List (MemoryM × ℝ × List PathM) :=
  memoryPaths.map (fun t =>
    let mem := t.2.1
    let paths := t.2.2
    let pathScore := aggregate_path_scores paths
    let w := cfg.finalScoringWeights
    let base := pathScore * (assocGet? w kPathScore).getD 0
      + mem.importance * (assocGet? w kImportance).getD 0
      + calculate_recency now mem * (assocGet? w kRecency).getD 0
    let typeBonus :=
      if prefer ≠ [] then
        match mem.nodes with
        | [] => 0
        | _ =>
          let matched := (mem.nodes.filter (node_matches_prefer vs prefer)).length
          if 0 < matched then
            base * ((matched : ℝ) / (mem.nodes.length : ℝ)) * 0.1
          else 0
      else 0
    (mem, base + typeBonus, paths))

/-- A seed path of depth 0 over a single node. -/
def seedPath (pid : Nat) (nodeId : String) (score : ℝ) : PathM :=
  { pid, nodes := [nodeId], edges := [], score, depth := 0 }

/-- The observables of one `expand_with_path_scoring` run: the returned value,
plus the final active set, the kept leaf paths, and the ghost list of every
constructed path. -/
structure ExpandRun where
  result : List (MemoryM × ℝ × List PathM)
  kept : List PathM
  finalActive : List PathM
  created : List PathM

/-- Embeds `expand_with_path_scoring`: empty seeds return immediately;
otherwise create the seed paths and the initial `best_score_to_node` dict,
run the hop loop, extract the leaf paths from the final active set, map them
to memories, apply final scoring, and return the top-k by score. -/
def expand_with_path_scoring (ctx : ExpandCtx)
    (initialNodes : List (String × ℝ)) (topK : Nat) (now : ℝ) : ExpandRun :=
  match initialNodes with
  | [] => { result := [], kept := [], finalActive := [], created := [] }
  | _ :: _ =>
    let seeds := initialNodes.enum.map (fun p => seedPath p.1 p.2.1 p.2.2)
    let best0 := initialNodes.foldl (fun b p => assocSet b p.1 p.2) []
    let hs := hop_loop ctx 0 ctx.cfg.maxHops
      { active := seeds, best := best0, counter := initialNodes.length,
        created := seeds }
    let leafPaths := extract_leaf_paths hs.active
    let memoryPaths := map_paths_to_memories ctx.graph leafPaths
    let scored := final_scoring ctx.cfg ctx.vs ctx.prefer now memoryPaths
    let sortedScored := scored.insertionSort (fun a b => b.2.1 ≤ a.2.1)
    { result := sortedScored.take topK, kept := leafPaths,
      finalActive := hs.active, created := hs.created }

end PathExpansion

/-! Embedding of utils/graph_expansion.py
(`expand_memories_with_semantic_filter`). -/

namespace GraphExpansion

/-- Mutable state of the semantic BFS: visited memory ids, the expanded-memory
score dict (insertion-ordered), and the next BFS level. -/
structure SemState where
  visited : List String
  expanded : List (String × ℝ)
  nextLevel : List String

/-- Embeds the `for neighbor_mem_id in neighbor_memory_ids` loop: already
visited ids are skipped; a first-contact id is recorded with the current
relevance score and added to `visited` and the next level; an id already in
the expanded dict would have its score maxed (the source's intent; see the
theorems about reachability of this branch). -/
def record_memories (relevance : ℝ) : List String → SemState → SemState
  | [], st => st
  | mid :: rest, st =>
    if mid ∈ st.visited then record_memories relevance rest st
    else
      match assocGet? st.expanded mid with
      | none =>
        record_memories relevance rest
          { visited := st.visited ++ [mid],
            expanded := st.expanded ++ [(mid, relevance)],
            nextLevel := st.nextLevel ++ [mid] }
      | some old =>
        record_memories relevance rest
          { st with expanded := assocSet st.expanded mid (max old relevance) }

/-- Embeds the `for neighbor_id in neighbors` loop: skip neighbors without a
graph record or a stored embedding, compute
`relevance = 0.7 * semantic_sim + 0.2 * edge_importance + 0.1 * depth_decay`,
drop it below the threshold, and otherwise record the neighbor's owning
memories. -/
def process_neighbors (g : GraphStoreM) (vs : VectorStoreM) (q : List ℝ)
    (threshold : ℝ) (depth : Nat) (nodeId : String) :
    List String → SemState → SemState
  | [], st => st
  | nb :: rest, st =>
    let st2 :=
      match g.nodeData nb with
      | none => st
      | some nd =>
        match (vs nb).bind (fun d => d.embedding) with
        | none => st
        | some nemb =>
          let semanticSim := cosine_similarity q nemb
          let edgeImportance := (g.edgeImportance nodeId nb).getD 0.5
          let depthDecay := 1.0 / ((depth : ℝ) + 1)
          let relevanceScore :=
            semanticSim * 0.7 + edgeImportance * 0.2 + depthDecay * 0.1
          if relevanceScore < threshold then st
          else record_memories relevanceScore nd.memoryIds st
    process_neighbors g vs q threshold depth nodeId rest st2

/-- Embeds the `for node in memory.nodes` loop: nodes without an embedding are
skipped; for the rest, the neighbor loop runs over `graph.neighbors`. -/
def process_memory_nodes (g : GraphStoreM) (vs : VectorStoreM) (q : List ℝ)
    (threshold : ℝ) (depth : Nat) : List NodeM → SemState → SemState
  | [], st => st
  | node :: rest, st =>
    let st2 :=
      match node.embedding with
      | none => st
      | some _ => process_neighbors g vs q threshold depth node.id
          (g.neighbors node.id) st
    process_memory_nodes g vs q threshold depth rest st2

/-- Embeds the `for memory_id in current_level` loop. -/
def process_level (g : GraphStoreM) (vs : VectorStoreM) (q : List ℝ)
    (threshold : ℝ) (depth : Nat) : List String → SemState → SemState
  | [], st => st
  | mid :: rest, st =>
    let st2 :=
      match g.getMemoryById mid with
      | none => st
      | some mem => process_memory_nodes g vs q threshold depth mem.nodes st
    process_level g vs q threshold depth rest st2

/-- Embeds the `for depth in range(max_depth)` loop: run one level, stop when
no new memory id was queued or the expansion cap was reached, else continue
from the next level truncated to the cap. -/
def depth_loop (g : GraphStoreM) (vs : VectorStoreM) (q : List ℝ)
    (threshold : ℝ) (maxExpanded : Nat) :
    Nat → Nat → List String → SemState → SemState
  | _, 0, _, st => st
  | depth, fuel + 1, currentLevel, st =>
    let st2 := process_level g vs q threshold depth currentLevel
      { st with nextLevel := [] }
    if st2.nextLevel = [] ∨ maxExpanded ≤ st2.expanded.length then st2
    else depth_loop g vs q threshold maxExpanded (depth + 1) fuel
      (st2.nextLevel.take maxExpanded) st2

/-- Embeds `expand_memories_with_semantic_filter`: guard empty input and a
missing query embedding, seed the visited set with the initial memory ids,
run the BFS, and return the expanded dict sorted by score descending,
truncated to `max_expanded`. -/
def expand_memories_with_semantic_filter (g : GraphStoreM) (vs : VectorStoreM)
    (initialMemoryIds : List String) (queryEmbedding : Option (List ℝ))
    (maxDepth : Nat) (semanticThreshold : ℝ) (maxExpanded : Nat) :
    List (String × ℝ) :=
  match initialMemoryIds, queryEmbedding with
  | [], _ => []
  | _ :: _, none => []
  | _ :: _, some q =>
    let st0 : SemState :=
      { visited := initialMemoryIds, expanded := [], nextLevel := [] }
    let stF := depth_loop g vs q semanticThreshold maxExpanded 0 maxDepth
      initialMemoryIds st0
    (stF.expanded.insertionSort (fun a b => b.2 ≤ a.2)).take maxExpanded

end GraphExpansion

/-! Embedding of utils/memory_deduplication.py. -/

namespace Dedup

/-- The extra-data dict carried alongside each scored memory.  `payload`
stands for whatever caller data the dict holds; the merge step adds the
`merged_count` and `original_scores` keys. -/
structure ExtraM where
  payload : Nat := 0
  mergedCount : Option Nat := none
  originalScores : Option (List ℝ) := none

/-- One `(Memory, score, extra_data)` input tuple of
`deduplicate_memories_by_similarity`. -/
structure ScoredMemory where
  mem : MemoryM
  score : ℝ
  extra : ExtraM := {}

/-- One `(memory, score, extra, embedding)` working tuple. -/
structure MemoryWithEmbedding where
  entry : ScoredMemory
  embedding : Option (List ℝ)

/-- Embeds `_get_memory_embedding`: the embedding of the memory's first node,
when the memory has nodes, the node has a non-empty id, and the node carries
an embedding; `none` otherwise. -/
def get_memory_embedding (m : MemoryM) : Option (List ℝ) :=
  match m.nodes with
  | [] => none
  | n0 :: _ => if n0.id = "" then none else n0.embedding

/-- Similarity of one embedding pair as computed in `_find_duplicate_groups`:
zero when either is missing or a zero vector, the cosine similarity
otherwise. -/
def pair_similarity (a b : Option (List ℝ)) : ℝ :=
  match a, b with
  | some ea, some eb =>
    if (∀ x ∈ ea, x = 0) ∨ (∀ x ∈ eb, x = 0) then 0
    else cosine_similarity ea eb
  | _, _ => 0

/-- The symmetric similarity matrix of `_find_duplicate_groups` (diagonal 0,
entry (i, j) computed once for i < j and mirrored). -/
def sim_matrix (embs : List (Option (List ℝ))) (i j : Nat) : ℝ :=
  if i < j then pair_similarity (embs.getD i none) (embs.getD j none)
  else if j < i then pair_similarity (embs.getD j none) (embs.getD i none)
  else 0

/-- The pairs `(i, j)`, `i < j < n`, whose similarity reaches the threshold:
exactly the pairs the source passes to `union`, in loop order. -/
def dup_pairs (embs : List (Option (List ℝ))) (threshold : ℝ) (n : Nat) :
    List (Nat × Nat) :=
  ((List.range n).map (fun i =>
    ((List.range n).filter (fun j => i < j ∧ threshold ≤ sim_matrix embs i j)).map
      (fun j => (i, j)))).flatten

/-- A union-find structure over `n` singleton classes, `parent = list(range(n))`. -/
def ufOfSize : Nat → Batteries.UnionFind
  | 0 => Batteries.UnionFind.empty
  | n + 1 => (ufOfSize n).push

/-- One `union(x, y)` call on in-range indices.  The source links the two
class roots in a flat parent array with path compression; the partition that
results from a sequence of unions — the only observable the grouping step
reads — is the equivalence closure of the union'd pairs, which
`Batteries.UnionFind.union` computes as well. -/
def ufUnion (uf : Batteries.UnionFind) (x y : Nat) : Batteries.UnionFind :=
  if h : x < uf.size ∧ y < uf.size then uf.union ⟨x, h.1⟩ ⟨y, h.2⟩ else uf

/-- The union-find state after merging all above-threshold pairs. -/
def dedup_uf (embs : List (Option (List ℝ))) (threshold : ℝ) (n : Nat) :
    Batteries.UnionFind :=
  (dup_pairs embs threshold n).foldl (fun u p => ufUnion u p.1 p.2) (ufOfSize n)

/-- Append index `i` to the group of root `r`, inserting the group on first
contact (`groups_dict` construction of `_find_duplicate_groups`). -/
def addToGroup : List (Nat × List Nat) → Nat → Nat → List (Nat × List Nat)
  | [], r, i => [(r, [i])]
  | (k, g) :: rest, r, i =>
    if k = r then (k, g ++ [i]) :: rest else (k, g) :: addToGroup rest r i

/-- The root-keyed groups dict: scan `i in range(n)` appending each index to
its root's group. -/
def groups_dict (uf : Batteries.UnionFind) (n : Nat) : List (Nat × List Nat) :=
  (List.range n).foldl (fun acc i => addToGroup acc (uf.rootD i) i) []

/-- Embeds `_find_duplicate_groups`: build the similarity matrix, union all
above-threshold pairs, group the indices by class, and keep the groups of
size above one. -/
def find_duplicate_groups (entries : List MemoryWithEmbedding)
    (threshold : ℝ) : List (List Nat) :=
  let n := entries.length
  let embs := entries.map (fun e => e.embedding)
  let uf := dedup_uf embs threshold n
  ((groups_dict uf n).map (fun p => p.2)).filter (fun grp => 1 < grp.length)

/-- Placeholder entry for the (unreached) empty-group case of the merge. -/
def dummyScoredMemory : ScoredMemory :=
  { mem := { id := "" }, score := 0 }

/-- Embeds `_merge_memory_group`: sort the group by score descending, keep the
top entry's memory and extra data, and blend the scores by the rank-decaying
weights `1 / (rank + 1)`; `merged_count` and `original_scores` are recorded
in the extra data.  (The source indexes `sorted_group[0]`; callers only pass
non-empty groups.) -/
def merge_memory_group (group : List MemoryWithEmbedding) : ScoredMemory :=
  match group.insertionSort (fun a b => b.entry.score ≤ a.entry.score) with
  | [] => dummyScoredMemory
  | bestE :: rest =>
    let sortedGroup := bestE :: rest
    let scores := sortedGroup.map (fun e => e.entry.score)
    let weightedSum := (scores.enum.map (fun p => p.2 * (1 / ((p.1 : ℝ) + 1)))).sum
    let totalWeight := (scores.enum.map (fun p => 1 / ((p.1 : ℝ) + 1))).sum
    let mergedScore :=
      if 0 < totalWeight then weightedSum / totalWeight else bestE.entry.score
    { mem := bestE.entry.mem, score := mergedScore,
      extra := { bestE.entry.extra with
        mergedCount := some sortedGroup.length,
        originalScores := some scores } }

/-- Embeds the `for group_indices in duplicate_groups` loop of
`deduplicate_memories_by_similarity`: skip groups overlapping already
processed indices, else mark the group processed and append its merge. -/
def merge_group_loop (entries : List MemoryWithEmbedding) :
    List (List Nat) → List Nat → List ScoredMemory → List Nat × List ScoredMemory
  | [], processed, out => (processed, out)
  | grp :: gs, processed, out =>
    if grp.any (fun i => i ∈ processed) then
      merge_group_loop entries gs processed out
    else
      merge_group_loop entries gs (processed ++ grp)
        (out ++ [merge_memory_group (grp.filterMap (fun i => entries[i]?))])

/-- The working list of `deduplicate_memories_by_similarity`: each input tuple
with the representative embedding of its memory attached. -/
def attach_embeddings (memories : List ScoredMemory) : List MemoryWithEmbedding :=
  memories.map (fun e => { entry := e, embedding := get_memory_embedding e.mem })

/-- Embeds `deduplicate_memories_by_similarity`: pass through lists of length
at most one; otherwise attach embeddings, find the duplicate groups, merge
each, append the unprocessed (standalone) entries in input order, sort by
adjusted score descending, and optionally truncate to `keep_top_n`. -/
def deduplicate_memories_by_similarity (memories : List ScoredMemory)
    (similarityThreshold : ℝ) (keepTopN : Option Nat) : List ScoredMemory :=
  if memories.length ≤ 1 then memories
  else
    let entries := attach_embeddings memories
    let groups := find_duplicate_groups entries similarityThreshold
    let pr := merge_group_loop entries groups [] []
    let deduplicated := pr.2 ++
      ((entries.enum.filter (fun p => p.1 ∉ pr.1)).map (fun p => p.2.entry))
    let sorted := deduplicated.insertionSort (fun a b => b.score ≤ a.score)
    match keepTopN with
    | some k => sorted.take k
    | none => sorted

end Dedup

/-! Specification-side restatements, written from the specification's wording
so that the code-derived definitions above can be compared against them. -/

/-- The node score as the specification words it: the clipped cosine
similarity of the query embedding to the neighbor's embedding, falling back
to 0.3 when the neighbor has no embedding and to 0.5 when the query embedding
is None, with a 20% bonus when the neighbor's node type is among the
preferred node types. -/
def node_score_spec (vs : VectorStoreM) (prefer : List String)
    (q : Option (List ℝ)) (nodeId : String) : ℝ :=
  let base : ℝ :=
    match q with
    | none => 0.5
    | some qe =>
      match (vs nodeId).bind (fun d => d.embedding) with
      | none => 0.3
      | some ne => clip01 (cosine_similarity qe ne)
  match (vs nodeId).bind (fun d => d.metadata.nodeType) with
  | some t => if t ∈ prefer then base * (1 + 0.2) else base
  | none => base

/-- The edge weight as the specification words it: the edge's importance times
its edge-type weight multiplier. -/
def edge_weight_spec (cfg : PathExpansionConfig) (e : EdgeM) : ℝ :=
  e.importance * PathExpansion.edge_type_weight cfg e.edgeType

/-- The rank-weighted average of a descending score list, with weight
`1 / (1 + rank)`, as the specification words the blended score of a
duplicate group. -/
def rank_weighted_average (scores : List ℝ) : ℝ :=
  (scores.enum.map (fun p => p.2 / ((p.1 : ℝ) + 1))).sum /
    (scores.enum.map (fun p => 1 / ((p.1 : ℝ) + 1))).sum

/-- Two list positions hold memories whose pairwise similarity reaches the
threshold: the edge relation of the specification's duplicate-group
connectivity. -/
def similar_related (embs : List (Option (List ℝ))) (threshold : ℝ) (n : Nat)
    (a b : Nat) : Prop :=
  a < n ∧ b < n ∧ a ≠ b ∧ threshold ≤ Dedup.sim_matrix embs a b

/-- Transitive (equivalence-closure) connectivity through above-threshold
similarities. -/
def similar_connected (embs : List (Option (List ℝ))) (threshold : ℝ)
    (n : Nat) (a b : Nat) : Prop :=
  Relation.EqvGen (similar_related embs threshold n) a b

/-- Membership of two indices in one common duplicate group. -/
def in_same_duplicate_group (entries : List Dedup.MemoryWithEmbedding)
    (threshold : ℝ) (i j : Nat) : Prop :=
  ∃ grp ∈ Dedup.find_duplicate_groups entries threshold, i ∈ grp ∧ j ∈ grp

/-! Concrete stores and inputs used to evaluate the models on small runs. -/

/-- A memory owning the single node `n1` and no edges. -/
def memNoEdges : MemoryM := { id := "m1", nodes := [ { id := "n1" } ] }

/-- A graph store holding only `memNoEdges`. -/
def graphNoEdges : GraphStoreM :=
  { nodeToMemories := fun s => if s = "n1" then [ "m1" ] else [],
    getMemoryById := fun s => if s = "m1" then some memNoEdges else none }

/-- An empty vector store. -/
def vsEmpty : VectorStoreM := fun _ => none

/-- Expansion context over the edgeless store, default configuration, no query
embedding. -/
def ctxNoEdges : PathExpansion.ExpandCtx :=
  { cfg := defaultPathExpansionConfig, graph := graphNoEdges, vs := vsEmpty }

/-- A REFERENCE edge of importance 0.8 between `n1` and `n2`. -/
def edgeRef : EdgeM :=
  { sourceId := "n1", targetId := "n2", edgeType := "REFERENCE", importance := 0.8 }

/-- A memory owning `n1`, `n2` and the edge between them. -/
def memOneEdge : MemoryM :=
  { id := "m1", nodes := [ { id := "n1" }, { id := "n2" } ], edges := [edgeRef] }

/-- A graph store holding only `memOneEdge`. -/
def graphOneEdge : GraphStoreM :=
  { nodeToMemories := fun s => if s = "n1" ∨ s = "n2" then [ "m1" ] else [],
    getMemoryById := fun s => if s = "m1" then some memOneEdge else none }

/-- Final-scoring weights summing to 2.0 instead of 1.0. -/
def badFinalWeights : List (String × ℝ) :=
  [ ( "path_score", 1.0), ( "importance", 0.6), ( "recency", 0.4)]

/-- A path-expansion configuration constructed with the invalid weight sum
2.0 and the out-of-range pruning threshold 1.5 (single hop, so the run below
produces output). -/
def badPathConfig : PathExpansionConfig :=
  { mkPathExpansionConfig badFinalWeights 1.5 with maxHops := 1 }

/-- Expansion context pairing the invalid configuration with the one-edge
store. -/
def ctxBadConfig : PathExpansion.ExpandCtx :=
  { cfg := badPathConfig, graph := graphOneEdge, vs := vsEmpty }

/-- The memory holding the seed node `n0` of the semantic-BFS run. -/
def memM0 : MemoryM := { id := "m0", nodes := [ { id := "n0", embedding := some [1] } ] }

/-- The target memory reached through two different neighbors. -/
def memMT : MemoryM := { id := "mt" }

/-- A graph store in which node `n0` has the two neighbors `x` and `y`, both
owned by memory `mt`, over edges of importance 0.2 and 0.9. -/
def graphTwoPaths : GraphStoreM :=
  { nodeToMemories := fun _ => [],
    getMemoryById := fun s =>
      if s = "m0" then some memM0 else if s = "mt" then some memMT else none,
    neighbors := fun s => if s = "n0" then [ "x", "y" ] else [],
    nodeData := fun s =>
      if s = "x" ∨ s = "y" then some { memoryIds := [ "mt" ] } else none,
    edgeImportance := fun a b =>
      if a = "n0" ∧ b = "x" then some 0.2
      else if a = "n0" ∧ b = "y" then some 0.9
      else none }

/-- Vector store holding the embeddings of the two neighbor nodes. -/
def vsTwoPaths : VectorStoreM :=
  fun s => if s = "x" ∨ s = "y" then some { id := s, embedding := some [1] } else none

/-- Scored memory A of the deduplication acceptance example. -/
def memDupA : Dedup.ScoredMemory :=
  { mem := { id := "A", nodes := [ { id := "a", embedding := some [1, 0] } ] },
    score := 0.9 }

/-- Scored memory B, similar to A. -/
def memDupB : Dedup.ScoredMemory :=
  { mem := { id := "B", nodes := [ { id := "b", embedding := some [1, 0] } ] },
    score := 0.8 }

/-- Scored distractor memory C, dissimilar from both A and B. -/
def memDupC : Dedup.ScoredMemory :=
  { mem := { id := "C", nodes := [ { id := "c", embedding := some [0, 1] } ] },
    score := 0.7 }

/-- The three-memory deduplication example. -/
def dupExample : List Dedup.ScoredMemory := [memDupA, memDupB, memDupC]

/-! Theorems.  Shared helper lemmas come first, then one theorem per claim
(with witnesses and counterexamples where applicable). -/

/-- The dot product of a vector with itself is non-negative. -/
theorem dot_self_nonneg (v : List ℝ) : 0 ≤ dot v v := by
  induction v with
  | nil => simp [dot]
  | cons x xs ih => simpa [dot] using add_nonneg (mul_self_nonneg x) ih

/-- Clipping lands at or above 0. -/
theorem clip01_nonneg (x : ℝ) : 0 ≤ clip01 x :=
  le_min zero_le_one (le_max_left 0 x)

/-- Clipping lands at or below 1. -/
theorem clip01_le_one (x : ℝ) : clip01 x ≤ 1 := min_le_left _ _

/-- The two spellings of clipping into the unit interval agree. -/
theorem max_min_eq_clip01 (x : ℝ) : max 0 (min 1 x) = clip01 x := by
  unfold clip01
  rw [max_min_distrib_left, max_eq_right zero_le_one]

/-- C8: `cosine_similarity` is total and bounded: for every pair of input
vectors the result lies in [0, 1] (totality of this function embeds that the
Python function, whose body is wrapped in a catch-all `except`, never
raises); when either vector has zero norm the result is 0.0, and when the
shapes mismatch the result is 0.0. -/
theorem cosine_similarity_total_and_bounded :
    ∀ vec1 vec2 : List ℝ,
      (0 ≤ cosine_similarity vec1 vec2 ∧ cosine_similarity vec1 vec2 ≤ 1) ∧
      (vecNorm vec1 = 0 ∨ vecNorm vec2 = 0 → cosine_similarity vec1 vec2 = 0) ∧
      (vec1.length ≠ vec2.length → cosine_similarity vec1 vec2 = 0) := by
  intro v1 v2
  unfold cosine_similarity
  refine ⟨⟨?_, ?_⟩, ?_, ?_⟩
  · split_ifs with h1 h2
    · exact le_refl 0
    · exact le_refl 0
    · exact clip01_nonneg _
  · split_ifs with h1 h2
    · exact zero_le_one
    · exact zero_le_one
    · exact clip01_le_one _
  · intro h
    rw [if_pos h]
  · intro h
    split_ifs <;> rfl

/-- Witness for C8: a mismatched-shape pair and a zero-norm pair both
evaluate to 0. -/
theorem cosine_similarity_total_and_bounded_witness :
    cosine_similarity [(1 : ℝ), 0] [1] = 0 ∧
    cosine_similarity [(0 : ℝ), 0] [1] = 0 := by
  constructor
  · exact (cosine_similarity_total_and_bounded [(1 : ℝ), 0] [1]).2.2 (by simp)
  · exact (cosine_similarity_total_and_bounded [(0 : ℝ), 0] [1]).2.1
      (Or.inl (by simp [vecNorm, dot]))

/-- C9: with an empty initial-node list, `expand_with_path_scoring` returns
the empty result immediately — by reflexivity, for every graph store, vector
store, query embedding and `top_k`, so the outcome depends on no store lookup. -/
theorem expand_with_path_scoring_empty_input (cfg : PathExpansionConfig)
    (g : GraphStoreM) (vs : VectorStoreM) (prefer : List String)
    (q : Option (List ℝ)) (topK : Nat) (now : ℝ) :
    PathExpansion.expand_with_path_scoring
      { cfg, graph := g, vs, prefer, queryEmbedding := q } [] topK now =
      { result := [], kept := [], finalActive := [], created := [] } := rfl

/-- C5 counterexample: `get_node_by_id` maps an index-layer failure to `none`,
the same value a successful lookup with no match produces — the two are
indistinguishable to the caller. -/
theorem get_node_by_id_error_indistinguishable :
    VectorStore.get_node_by_id (Except.error ( "chroma lookup failed" )) =
      VectorStore.get_node_by_id (Except.ok {}) ∧
    VectorStore.get_node_by_id (Except.error ( "chroma lookup failed" )) = none :=
  ⟨rfl, rfl⟩

/-- C5 (amended): `add_node`, `add_nodes_batch`, `search_similar_nodes`,
`delete_node` and `update_node_embedding` surface every index-layer failure
to the caller after logging it, but `get_node_by_id` converts the failure
into a `none` return. -/
theorem vector_store_error_surfacing :
    ∀ (e : String) (node : NodeM) (nodes : List NodeM) (minSim : ℝ),
      (node.embedding.isSome →
        VectorStore.add_node node (Except.error e) = Except.error e) ∧
      (nodes.filter (fun n => n.embedding.isSome) ≠ [] →
        VectorStore.add_nodes_batch nodes (Except.error e) = Except.error e) ∧
      VectorStore.search_similar_nodes (Except.error e) minSim = Except.error e ∧
      VectorStore.delete_node (Except.error e) = Except.error e ∧
      VectorStore.update_node_embedding (Except.error e) = Except.error e ∧
      VectorStore.get_node_by_id (Except.error e) = none := by
  intro e node nodes minSim
  refine ⟨?_, ?_, rfl, rfl, rfl, rfl⟩
  · intro h
    cases hb : node.embedding with
    | none => simp [hb] at h
    | some v => simp [VectorStore.add_node, hb]
  · intro h
    rcases hf : nodes.filter (fun n => n.embedding.isSome) with _ | ⟨a, l⟩
    · exact absurd hf h
    · simp [VectorStore.add_nodes_batch, hf]

/-- Witness for C5's amended theorem: a node carrying an embedding forwards
the error on `add_node` and `add_nodes_batch`. -/
theorem vector_store_error_surfacing_witness :
    VectorStore.add_node { id := "n", embedding := some [1] }
      (Except.error ( "boom" )) = Except.error ( "boom" ) ∧
    VectorStore.add_nodes_batch [ { id := "n", embedding := some [1] } ]
      (Except.error ( "boom" )) = Except.error ( "boom" ) := by
  have h := vector_store_error_surfacing ( "boom" )
    { id := "n", embedding := some [1] } [ { id := "n", embedding := some [1] } ] 0
  exact ⟨h.1 rfl, h.2.1 (by simp)⟩

/-- C4 (amended): construction-time validation exists for `RetrievalConfig`
(the four retrieval weights must sum to 1.0 within 0.01) and for
`NodeMergerConfig` (threshold within [0, 1]), but `PathExpansionConfig` is an
unvalidated dataclass: every final-scoring weight assignment and every
pruning threshold is accepted at construction. -/
theorem config_construction_validation :
    (∀ vw gw iw rw : ℝ, (∃ c, mkRetrievalConfig vw gw iw rw = Except.ok c) ↔
      |vw + gw + iw + rw - 1.0| ≤ 0.01) ∧
    (∀ t : ℝ, (∃ c, mkNodeMergerConfig t = Except.ok c) ↔ 0 ≤ t ∧ t ≤ 1) ∧
    (∀ (fw : List (String × ℝ)) (pt : ℝ),
      (mkPathExpansionConfig fw pt).finalScoringWeights = fw ∧
      (mkPathExpansionConfig fw pt).pruningThreshold = pt) := by
  refine ⟨?_, ?_, ?_⟩
  · intro vw gw iw rw
    unfold mkRetrievalConfig
    split_ifs with h
    · constructor
      · rintro ⟨c, hc⟩
        simp at hc
      · intro hle
        exact absurd hle (not_le.2 h)
    · constructor
      · intro _
        exact not_lt.1 h
      · intro _
        exact ⟨_, rfl⟩
  · intro t
    unfold mkNodeMergerConfig
    split_ifs with h
    · exact ⟨fun _ => h, fun _ => ⟨_, rfl⟩⟩
    · constructor
      · rintro ⟨c, hc⟩
        simp at hc
      · intro hh
        exact absurd hh h
  · intro fw pt
    exact ⟨rfl, rfl⟩

/-- Witness for C4's amended theorem: the default retrieval weights are
accepted while an out-of-range node-merger threshold is rejected. -/
theorem config_construction_validation_witness :
    (∃ c, mkRetrievalConfig 0.4 0.2 0.2 0.2 = Except.ok c) ∧
    ¬ (∃ c, mkNodeMergerConfig 1.5 = Except.ok c) := by
  constructor
  · exact (config_construction_validation.1 0.4 0.2 0.2 0.2).mpr (by norm_num)
  · intro hex
    have h2 := (config_construction_validation.2.1 1.5).mp hex
    norm_num at h2

/-- The traversal's node score agrees with the specification's wording of it. -/
theorem get_node_score_eq_spec (vs : VectorStoreM) (prefer : List String)
    (q : Option (List ℝ)) (nodeId : String) :
    PathExpansion.get_node_score vs prefer q nodeId =
      node_score_spec vs prefer q nodeId := by
  unfold PathExpansion.get_node_score node_score_spec
  by_cases hp : prefer = []
  · subst hp
    cases hv : vs nodeId with
    | none => cases q <;> simp [hv]
    | some nd =>
      cases hm : nd.metadata.nodeType <;> cases q <;>
        cases he : nd.embedding <;> simp [hv, hm, he, max_min_eq_clip01]
  · cases hv : vs nodeId with
    | none => cases q <;> simp [hv, hp]
    | some nd =>
      cases hm : nd.metadata.nodeType with
      | none =>
        cases q <;> cases he : nd.embedding <;>
          simp [hv, hm, hp, he, max_min_eq_clip01]
      | some t =>
        by_cases ht : t ∈ prefer <;> cases q <;> cases he : nd.embedding <;>
          simp [hv, hm, hp, ht, he, max_min_eq_clip01] <;> ring

/-- C1: the score of the path created by an extension step at hop `hop`
equals `old_score * edge_weight * damping^(hop+1) +
node_score * (1 - damping^(hop+1))`, with the edge weight being the edge's
importance times its type multiplier and the node score as the
specification describes it (clipped cosine similarity with the 0.3 / 0.5
fallbacks and the 20% preferred-type bonus); in the default configuration
the REFERENCE multiplier is 1.3, TEMPORAL is 0.7 and unlisted types get the

DEFAULT multiplier 1.0. -/
theorem extension_step_score_formula :
    (∀ (cfg : PathExpansionConfig) (vs : VectorStoreM) (prefer : List String)
        (q : Option (List ℝ)) (path : PathM) (edge : EdgeM) (nextNode : String)
        (hop pid : Nat),
      (PathExpansion.extend_path cfg vs prefer q path edge nextNode hop pid).score =
        path.score * edge_weight_spec cfg edge * cfg.dampingFactor ^ (hop + 1) +
          node_score_spec vs prefer q nextNode * (1 - cfg.dampingFactor ^ (hop + 1))) ∧
    PathExpansion.edge_type_weight defaultPathExpansionConfig ( "REFERENCE" ) = 1.3 ∧
    PathExpansion.edge_type_weight defaultPathExpansionConfig ( "TEMPORAL" ) = 0.7 ∧
    PathExpansion.edge_type_weight defaultPathExpansionConfig ( "SOME_NEW_TYPE" ) = 1.0 := by
  refine ⟨?_, ?_, ?_, ?_⟩
  · intro cfg vs prefer q path edge nextNode hop pid
    simp only [PathExpansion.extend_path, PathExpansion.calculate_path_score,
      PathExpansion.get_edge_weight, edge_weight_spec, get_node_score_eq_spec]
  · simp [PathExpansion.edge_type_weight, assocGet?, defaultPathExpansionConfig,
      PathExpansion.kDefault]
  · simp [PathExpansion.edge_type_weight, assocGet?, defaultPathExpansionConfig,
      PathExpansion.kDefault]
  · simp [PathExpansion.edge_type_weight, assocGet?, defaultPathExpansionConfig,
      PathExpansion.kDefault]

/-- Cosine similarity of the one-dimensional unit vector with itself. -/
theorem cosine_single_one : cosine_similarity [(1 : ℝ)] [(1 : ℝ)] = 1 := by
  have hn : vecNorm [(1 : ℝ)] = 1 := by
    simp [vecNorm, dot]
  norm_num [cosine_similarity, hn, clip01, dot]

/-- Evaluation of the semantic BFS on the two-neighbor store: memory `mt` is
reachable through neighbor `x` (relevance 0.84, visited first) and through
neighbor `y` (relevance 0.98), and the recorded score is 0.84. -/
theorem semantic_two_paths_run :
    GraphExpansion.expand_memories_with_semantic_filter graphTwoPaths vsTwoPaths
      [ "m0" ] (some [1]) 2 0.5 20 = [( "mt", (0.84 : ℝ))] := by
  repeat
    first
    | (simp [GraphExpansion.expand_memories_with_semantic_filter,
        GraphExpansion.depth_loop, GraphExpansion.process_level,
        GraphExpansion.process_memory_nodes, GraphExpansion.process_neighbors,
        GraphExpansion.record_memories, graphTwoPaths, vsTwoPaths, memM0, memMT,
        assocGet?, cosine_single_one, List.insertionSort, List.orderedInsert])
    | norm_num

/-- C7: with memory `mt` reached first through a path of relevance 0.84 and
then through a path of relevance 0.98, the recorded score is the first
path's 0.84, not the maximum: the max-update branch of the source is
unreachable because a memory enters `visited` together with its first
recorded score, so every later path is skipped at the visited check. -/
theorem semantic_filter_records_first_score :
    GraphExpansion.expand_memories_with_semantic_filter graphTwoPaths vsTwoPaths
      [ "m0" ] (some [1]) 2 0.5 20 = [( "mt", (0.84 : ℝ))] ∧
    cosine_similarity [1] [1] * 0.7 + 0.9 * 0.2 + 1.0 * 0.1 = (0.98 : ℝ) ∧
    (0.84 : ℝ) ≠ 0.98 := by
  refine ⟨semantic_two_paths_run, ?_, by norm_num⟩
  rw [cosine_single_one]
  norm_num

/-- Pairs reachable in an updated association list were present before or
carry the written key. -/
theorem assocSet_mem {α : Type} (l : List (String × α)) (k : String) (v : α) :
    ∀ pr ∈ assocSet l k v, pr ∈ l ∨ pr.1 = k := by
  induction l with
  | nil =>
    intro pr h
    simp [assocSet] at h
    subst h
    exact Or.inr rfl
  | cons hd tl ih =>
    obtain ⟨k0, v0⟩ := hd
    intro pr h
    simp only [assocSet] at h
    split_ifs at h with hk
    · rcases List.mem_cons.1 h with h1 | h1
      · subst h1
        exact Or.inr hk
      · exact Or.inl (List.mem_cons_of_mem _ h1)
    · rcases List.mem_cons.1 h with h1 | h1
      · exact Or.inl (h1 ▸ List.mem_cons_self _ _)
      · rcases ih pr h1 with h2 | h2
        · exact Or.inl (List.mem_cons_of_mem _ h2)
        · exact Or.inr h2

/-- The memory-recording loop keeps the initial ids inside `visited` and
keeps the expanded dict clear of them. -/
theorem record_memories_inv (initial : List String) (rel : ℝ) :
    ∀ (mids : List String) (st : GraphExpansion.SemState),
      (∀ m ∈ initial, m ∈ st.visited) →
      (∀ pr ∈ st.expanded, pr.1 ∉ initial) →
      (∀ m ∈ initial, m ∈ (GraphExpansion.record_memories rel mids st).visited) ∧
      (∀ pr ∈ (GraphExpansion.record_memories rel mids st).expanded, pr.1 ∉ initial) := by
  intro mids
  induction mids with
  | nil =>
    intro st h1 h2
    simp only [GraphExpansion.record_memories]
    exact ⟨h1, h2⟩
  | cons mid rest ih =>
    intro st h1 h2
    simp only [GraphExpansion.record_memories]
    split_ifs with hv
    · exact ih st h1 h2
    · have hmid : mid ∉ initial := fun hin => hv (h1 mid hin)
      cases hg : assocGet? st.expanded mid with
      | none =>
        refine ih _ (fun m hm => List.mem_append_left _ (h1 m hm)) ?_
        intro pr hpr
        rcases List.mem_append.1 hpr with h3 | h3
        · exact h2 pr h3
        · rcases List.mem_singleton.1 h3 with rfl
          exact hmid
      | some old =>
        refine ih _ h1 ?_
        intro pr hpr
        rcases assocSet_mem _ _ _ pr hpr with h3 | h3
        · exact h2 pr h3
        · rw [h3]
          exact hmid

/-- The neighbor loop preserves the disjointness invariant. -/
theorem process_neighbors_inv (initial : List String) (g : GraphStoreM)
    (vs : VectorStoreM) (q : List ℝ) (threshold : ℝ) (depth : Nat)
    (nodeId : String) :
    ∀ (nbs : List String) (st : GraphExpansion.SemState),
      (∀ m ∈ initial, m ∈ st.visited) →
      (∀ pr ∈ st.expanded, pr.1 ∉ initial) →
      (∀ m ∈ initial,
        m ∈ (GraphExpansion.process_neighbors g vs q threshold depth nodeId nbs st).visited) ∧
      (∀ pr ∈ (GraphExpansion.process_neighbors g vs q threshold depth nodeId nbs st).expanded,
        pr.1 ∉ initial) := by
  intro nbs
  induction nbs with
  | nil =>
    intro st h1 h2
    simp only [GraphExpansion.process_neighbors]
    exact ⟨h1, h2⟩
  | cons nb rest ih =>
    intro st h1 h2
    simp only [GraphExpansion.process_neighbors]
    cases g.nodeData nb with
    | none => exact ih st h1 h2
    | some nd =>
      cases (vs nb).bind (fun d => d.embedding) with
      | none => exact ih st h1 h2
      | some nemb =>
        dsimp only
        split_ifs with hrel
        · exact ih st h1 h2
        · obtain ⟨h1r, h2r⟩ := record_memories_inv initial _ nd.memoryIds st h1 h2
          exact ih _ h1r h2r

/-- The per-memory node loop preserves the disjointness invariant. -/
theorem process_memory_nodes_inv (initial : List String) (g : GraphStoreM)
    (vs : VectorStoreM) (q : List ℝ) (threshold : ℝ) (depth : Nat) :
    ∀ (ns : List NodeM) (st : GraphExpansion.SemState),
      (∀ m ∈ initial, m ∈ st.visited) →
      (∀ pr ∈ st.expanded, pr.1 ∉ initial) →
      (∀ m ∈ initial,
        m ∈ (GraphExpansion.process_memory_nodes g vs q threshold depth ns st).visited) ∧
      (∀ pr ∈ (GraphExpansion.process_memory_nodes g vs q threshold depth ns st).expanded,
        pr.1 ∉ initial) := by
  intro ns
  induction ns with
  | nil =>
    intro st h1 h2
    simp only [GraphExpansion.process_memory_nodes]
    exact ⟨h1, h2⟩
  | cons node rest ih =>
    intro st h1 h2
    simp only [GraphExpansion.process_memory_nodes]
    cases node.embedding with
    | none => exact ih st h1 h2
    | some e =>
      obtain ⟨h1r, h2r⟩ := process_neighbors_inv initial g vs q threshold depth
        node.id (g.neighbors node.id) st h1 h2
      exact ih _ h1r h2r

/-- The per-level memory loop preserves the disjointness invariant. -/
theorem process_level_inv (initial : List String) (g : GraphStoreM)
    (vs : VectorStoreM) (q : List ℝ) (threshold : ℝ) (depth : Nat) :
    ∀ (level : List String) (st : GraphExpansion.SemState),
      (∀ m ∈ initial, m ∈ st.visited) →
      (∀ pr ∈ st.expanded, pr.1 ∉ initial) →
      (∀ m ∈ initial,
        m ∈ (GraphExpansion.process_level g vs q threshold depth level st).visited) ∧
      (∀ pr ∈ (GraphExpansion.process_level g vs q threshold depth level st).expanded,
        pr.1 ∉ initial) := by
  intro level
  induction level with
  | nil =>
    intro st h1 h2
    simp only [GraphExpansion.process_level]
    exact ⟨h1, h2⟩
  | cons mid rest ih =>
    intro st h1 h2
    simp only [GraphExpansion.process_level]
    cases g.getMemoryById mid with
    | none => exact ih st h1 h2
    | some mem =>
      obtain ⟨h1r, h2r⟩ := process_memory_nodes_inv initial g vs q threshold depth
        mem.nodes st h1 h2
      exact ih _ h1r h2r

/-- The depth loop preserves the disjointness invariant. -/
theorem depth_loop_inv (initial : List String) (g : GraphStoreM)
    (vs : VectorStoreM) (q : List ℝ) (threshold : ℝ) (maxExpanded : Nat) :
    ∀ (fuel depth : Nat) (level : List String) (st : GraphExpansion.SemState),
      (∀ m ∈ initial, m ∈ st.visited) →
      (∀ pr ∈ st.expanded, pr.1 ∉ initial) →
      (∀ pr ∈ (GraphExpansion.depth_loop g vs q threshold maxExpanded depth fuel level st).expanded,
        pr.1 ∉ initial) := by
  intro fuel
  induction fuel with
  | zero =>
    intro depth level st h1 h2
    simp only [GraphExpansion.depth_loop]
    exact h2
  | succ n ih =>
    intro depth level st h1 h2
    simp only [GraphExpansion.depth_loop]
    have h1r : ∀ m ∈ initial, m ∈ ({ st with nextLevel := [] } : GraphExpansion.SemState).visited := h1
    have h2r : ∀ pr ∈ ({ st with nextLevel := [] } : GraphExpansion.SemState).expanded, pr.1 ∉ initial := h2
    obtain ⟨h1s, h2s⟩ := process_level_inv initial g vs q threshold depth level _ h1r h2r
    split_ifs with hstop
    · exact h2s
    · exact ih (depth + 1) _ _ h1s h2s

/-- C10: every pair returned by `expand_memories_with_semantic_filter` names a
memory id outside the initial id list — the initial ids are pre-seeded into
the visited set, so the caller has to union the result with the initial set
themselves. -/
theorem semantic_filter_result_disjoint_from_initial (g : GraphStoreM)
    (vs : VectorStoreM) (initial : List String) (q : Option (List ℝ))
    (maxDepth : Nat) (threshold : ℝ) (maxExpanded : Nat) :
    ∀ pr ∈ GraphExpansion.expand_memories_with_semantic_filter g vs initial q
        maxDepth threshold maxExpanded, pr.1 ∉ initial := by
  intro pr hpr
  cases initial with
  | nil => simp [GraphExpansion.expand_memories_with_semantic_filter] at hpr
  | cons i0 irest =>
    cases q with
    | none => simp [GraphExpansion.expand_memories_with_semantic_filter] at hpr
    | some qe =>
      simp only [GraphExpansion.expand_memories_with_semantic_filter] at hpr
      have hsort := List.take_subset maxExpanded _ hpr
      have hmem := (List.mem_insertionSort _).1 hsort
      exact depth_loop_inv (i0 :: irest) g vs qe threshold maxExpanded maxDepth 0
        (i0 :: irest) { visited := i0 :: irest, expanded := [], nextLevel := [] }
        (fun m hm => hm) (by simp) pr hmem

/-- Witness for C10: the concrete semantic-BFS run returns `mt`, which is not
among the initial ids. -/
theorem semantic_filter_result_disjoint_from_initial_witness :
    (( "mt", (0.84 : ℝ)) : String × ℝ).1 ∉ [ "m0" ] :=
  semantic_filter_result_disjoint_from_initial graphTwoPaths vsTwoPaths
    [ "m0" ] (some [1]) 2 0.5 20 ( "mt", (0.84 : ℝ))
    (by rw [semantic_two_paths_run]; exact List.mem_singleton.mpr rfl)

/-- Evaluation of a default-configuration expansion run over the edgeless
store: the hop loop's first hop produces no new paths, the early-stop break
leaves the empty list as the final active set, and the run returns nothing —
although the (never extended) seed path was created. -/
theorem no_edges_run :
    PathExpansion.expand_with_path_scoring ctxNoEdges [( "n1", 0.9)] 20 0 =
      { result := [], kept := [], finalActive := [],
        created := [PathExpansion.seedPath 0 ( "n1" ) 0.9] } := by
  repeat
    first
    | (simp [PathExpansion.expand_with_path_scoring, PathExpansion.hop_loop,
        PathExpansion.process_hop, PathExpansion.process_path,
        PathExpansion.process_edges, PathExpansion.get_sorted_neighbor_edges,
        PathExpansion.dedupEdges, PathExpansion.firstOccKeys,
        PathExpansion.lastWithKey, PathExpansion.extract_leaf_paths,
        PathExpansion.map_paths_to_memories, PathExpansion.final_scoring,
        PathExpansion.seedPath, ctxNoEdges, graphNoEdges, vsEmpty, memNoEdges,
        assocGet?, assocSet, defaultPathExpansionConfig, List.enum,
        List.enumFrom, List.insertionSort, List.orderedInsert])
    | norm_num

/-- C2: the code keeps only the final hop's path list for memory mapping, not
the never-extended paths.  Failing input: one seed node `n1` (score 0.9)
owned by memory `m1`, with no edges, under the default configuration.  The
seed path is created and never extended, so per the claim it should be kept
as a leaf path and contribute `m1`; the run instead keeps no path at all and
returns the empty list, because `active_paths` is overwritten with the empty
new-path list before the early-stop break and `_extract_leaf_paths` only
ever sees that final list. -/
theorem unextended_seed_path_dropped :
    (PathExpansion.expand_with_path_scoring ctxNoEdges [( "n1", 0.9)] 20 0).kept = [] ∧
    (PathExpansion.expand_with_path_scoring ctxNoEdges [( "n1", 0.9)] 20 0).result = [] ∧
    (PathExpansion.expand_with_path_scoring ctxNoEdges [( "n1", 0.9)] 20 0).created =
      [PathExpansion.seedPath 0 ( "n1" ) 0.9] ∧
    graphNoEdges.getMemoryById ( "m1" ) = some memNoEdges := by
  refine ⟨?_, ?_, ?_, ?_⟩
  · rw [no_edges_run]
  · rw [no_edges_run]
  · rw [no_edges_run]
  · simp [graphNoEdges]

/-- Evaluation of a single-hop run under the invalid configuration: the
traversal extends the seed over the REFERENCE edge and returns memory `m1`
scored with the unchecked weights
`0.8706 * 1.0 + 0.5 * 0.6 + 1.0 * 0.4 = 1.5706`. -/
theorem bad_config_run :
    ((PathExpansion.expand_with_path_scoring ctxBadConfig [( "n1", 0.9)] 20 0).result.map
      (fun t => (t.1.id, t.2.1))) = [( "m1", (1.5706 : ℝ))] := by
  repeat
    first
    | (simp [PathExpansion.expand_with_path_scoring, PathExpansion.hop_loop,
        PathExpansion.process_hop, PathExpansion.process_path,
        PathExpansion.process_edges, PathExpansion.get_sorted_neighbor_edges,
        PathExpansion.dedupEdges, PathExpansion.firstOccKeys,
        PathExpansion.lastWithKey, PathExpansion.edgeKey,
        PathExpansion.extract_leaf_paths, PathExpansion.map_paths_to_memories,
        PathExpansion.dedupFO, PathExpansion.assocAppendPath,
        PathExpansion.final_scoring, PathExpansion.aggregate_path_scores,
        PathExpansion.calculate_recency, PathExpansion.seedPath,
        PathExpansion.extend_path, PathExpansion.calculate_path_score,
        PathExpansion.get_edge_weight, PathExpansion.edge_type_weight,
        PathExpansion.get_node_score, PathExpansion.calculate_max_branches,
        PathExpansion.try_merge_paths, PathExpansion.otherEndpoint,
        PathExpansion.kDefault, PathExpansion.kPathScore,
        PathExpansion.kImportance, PathExpansion.kRecency,
        ctxBadConfig, badPathConfig, mkPathExpansionConfig, badFinalWeights,
        graphOneEdge, memOneEdge, edgeRef, vsEmpty, assocGet?, assocSet,
        defaultPathExpansionConfig, List.enum, List.enumFrom,
        List.insertionSort, List.orderedInsert])
    | norm_num

/-- C4 counterexample: a `PathExpansionConfig` whose final-scoring weights sum
to 2.0 and whose pruning threshold 1.5 lies outside [0, 1] is accepted at
construction — no error is possible, the dataclass has no validation — and a
`PathScoreExpansion` run starts and completes with it, returning a normally
scored memory. -/
theorem invalid_path_config_accepted_and_run :
    (assocGet? badPathConfig.finalScoringWeights PathExpansion.kPathScore).getD 0 +
      (assocGet? badPathConfig.finalScoringWeights PathExpansion.kImportance).getD 0 +
      (assocGet? badPathConfig.finalScoringWeights PathExpansion.kRecency).getD 0 = 2 ∧
    badPathConfig.pruningThreshold = 1.5 ∧
    ¬ badPathConfig.pruningThreshold ≤ 1 ∧
    ((PathExpansion.expand_with_path_scoring ctxBadConfig [( "n1", 0.9)] 20 0).result.map
      (fun t => (t.1.id, t.2.1))) = [( "m1", (1.5706 : ℝ))] := by
  refine ⟨?_, ?_, ?_, bad_config_run⟩
  · simp [badPathConfig, mkPathExpansionConfig, badFinalWeights, assocGet?,
      PathExpansion.kPathScore, PathExpansion.kImportance, PathExpansion.kRecency,
      defaultPathExpansionConfig]
    norm_num
  · simp [badPathConfig, mkPathExpansionConfig]
  · simp [badPathConfig, mkPathExpansionConfig]
    norm_num

/-- A successful path merge keeps the new path's node sequence and returns a
sublist of the scanned path list. -/
theorem try_merge_paths_spec (cfg : PathExpansionConfig) (pid : Nat)
    (newP : PathM) :
    ∀ (l : List PathM) (m : PathM) (rest2 : List PathM),
      PathExpansion.try_merge_paths cfg pid newP l = some (m, rest2) →
      m.nodes = newP.nodes ∧ ∀ p ∈ rest2, p ∈ l := by
  intro l
  induction l with
  | nil =>
    intro m rest2 h
    simp [PathExpansion.try_merge_paths] at h
  | cons e rest ih =>
    intro m rest2 h
    simp only [PathExpansion.try_merge_paths] at h
    cases hend : newP.nodes.getLast? with
    | none => rw [hend] at h; exact absurd h (by simp)
    | some endpoint =>
      rw [hend] at h
      dsimp only at h
      split_ifs at h with hc
      · obtain ⟨hm, hr⟩ := Prod.mk.injEq .. ▸ Option.some.injEq .. ▸ h
        constructor
        · rw [← hm]
        · intro p hp
          rw [← hr] at hp
          exact List.mem_cons_of_mem _ hp
      · cases hrec : PathExpansion.try_merge_paths cfg pid newP rest with
        | none => rw [hrec] at h; exact absurd h (by simp)
        | some pr =>
          obtain ⟨m', rest'⟩ := pr
          rw [hrec] at h
          obtain ⟨hm, hr⟩ := Prod.mk.injEq .. ▸ Option.some.injEq .. ▸ h
          obtain ⟨ihm, ihr⟩ := ih m' rest' hrec
          constructor
          · rw [← hm]; exact ihm
          · intro p hp
            rw [← hr] at hp
            rcases List.mem_cons.1 hp with h1 | h1
            · exact h1 ▸ List.mem_cons_self _ _
            · exact List.mem_cons_of_mem _ (ihr p h1)

/-- The edge loop preserves node-sequence distinctness of every tracked path. -/
theorem process_edges_nodup (ctx : PathExpansion.ExpandCtx) (path : PathM)
    (current : String) (hop maxBranches : Nat) (hpath : path.nodes.Nodup) :
    ∀ (edges : List EdgeM) (bc : Nat) (st : PathExpansion.ExpandState),
      (∀ p ∈ st.nextPaths, p.nodes.Nodup) →
      (∀ p ∈ st.created, p.nodes.Nodup) →
      (∀ p ∈ (PathExpansion.process_edges ctx path current hop maxBranches
          edges bc st).nextPaths, p.nodes.Nodup) ∧
      (∀ p ∈ (PathExpansion.process_edges ctx path current hop maxBranches
          edges bc st).created, p.nodes.Nodup) := by
  intro edges
  induction edges with
  | nil =>
    intro bc st h1 h2
    simp only [PathExpansion.process_edges]
    exact ⟨h1, h2⟩
  | cons edge rest ih =>
    intro bc st h1 h2
    simp only [PathExpansion.process_edges]
    split_ifs with hmem hpr hbc
    · exact ih bc st h1 h2
    · exact ih bc st h1 h2
    all_goals {
      have hnew : (path.nodes ++
          [PathExpansion.otherEndpoint edge current]).Nodup := by
        rw [List.nodup_append]
        exact ⟨hpath, List.nodup_singleton _, by
          simpa [List.disjoint_singleton] using hmem⟩
      cases htm : PathExpansion.try_merge_paths ctx.cfg (st.counter + 1)
          (PathExpansion.extend_path ctx.cfg ctx.vs ctx.prefer ctx.queryEmbedding
            path edge (PathExpansion.otherEndpoint edge current) hop st.counter)
          st.nextPaths with
      | none =>
        first
        | exact ⟨fun p hp => by
              rcases List.mem_append.1 hp with h3 | h3
              · exact h1 p h3
              · exact (List.mem_singleton.1 h3) ▸ hnew,
            fun p hp => by
              rcases List.mem_append.1 hp with h3 | h3
              · exact h2 p h3
              · exact (List.mem_singleton.1 h3) ▸ hnew⟩
        | refine ih (bc + 1) _ (fun p hp => ?_) (fun p hp => ?_)
          · rcases List.mem_append.1 hp with h3 | h3
            · exact h1 p h3
            · exact (List.mem_singleton.1 h3) ▸ hnew
          · rcases List.mem_append.1 hp with h3 | h3
            · exact h2 p h3
            · exact (List.mem_singleton.1 h3) ▸ hnew
      | some pr =>
        obtain ⟨m, rest2⟩ := pr
        obtain ⟨hmn, hrs⟩ := try_merge_paths_spec ctx.cfg (st.counter + 1) _
          st.nextPaths m rest2 htm
        have hmnodup : m.nodes.Nodup := by rw [hmn]; exact hnew
        first
        | exact ⟨fun p hp => by
              rcases List.mem_append.1 hp with h3 | h3
              · exact h1 p (hrs p h3)
              · exact (List.mem_singleton.1 h3) ▸ hmnodup,
            fun p hp => by
              rcases List.mem_append.1 hp with h3 | h3
              · exact h2 p h3
              · rcases List.mem_cons.1 h3 with h4 | h4
                · exact h4 ▸ hnew
                · exact (List.mem_singleton.1 h4) ▸ hmnodup⟩
        | refine ih (bc + 1) _ (fun p hp => ?_) (fun p hp => ?_)
          · rcases List.mem_append.1 hp with h3 | h3
            · exact h1 p (hrs p h3)
            · exact (List.mem_singleton.1 h3) ▸ hmnodup
          · rcases List.mem_append.1 hp with h3 | h3
            · exact h2 p h3
            · rcases List.mem_cons.1 h3 with h4 | h4
              · exact h4 ▸ hnew
              · exact (List.mem_singleton.1 h4) ▸ hmnodup
    }

/-- Processing one active path preserves node-sequence distinctness. -/
theorem process_path_nodup (ctx : PathExpansion.ExpandCtx) (hop : Nat)
    (st : PathExpansion.ExpandState) (path : PathM)
    (hpath : path.nodes.Nodup)
    (h1 : ∀ p ∈ st.nextPaths, p.nodes.Nodup)
    (h2 : ∀ p ∈ st.created, p.nodes.Nodup) :
    (∀ p ∈ (PathExpansion.process_path ctx hop st path).nextPaths, p.nodes.Nodup) ∧
    (∀ p ∈ (PathExpansion.process_path ctx hop st path).created, p.nodes.Nodup) := by
  unfold PathExpansion.process_path
  cases path.nodes.getLast? with
  | none => exact ⟨h1, h2⟩
  | some current => exact process_edges_nodup ctx path current hop _ hpath _ 0 st h1 h2

/-- The per-hop fold preserves node-sequence distinctness. -/
theorem foldl_process_path_nodup (ctx : PathExpansion.ExpandCtx) (hop : Nat) :
    ∀ (paths : List PathM) (st : PathExpansion.ExpandState),
      (∀ p ∈ paths, p.nodes.Nodup) →
      (∀ p ∈ st.nextPaths, p.nodes.Nodup) →
      (∀ p ∈ st.created, p.nodes.Nodup) →
      (∀ p ∈ (paths.foldl (PathExpansion.process_path ctx hop) st).nextPaths,
        p.nodes.Nodup) ∧
      (∀ p ∈ (paths.foldl (PathExpansion.process_path ctx hop) st).created,
        p.nodes.Nodup) := by
  intro paths
  induction paths with
  | nil =>
    intro st hp h1 h2
    exact ⟨h1, h2⟩
  | cons path rest ih =>
    intro st hp h1 h2
    obtain ⟨h1r, h2r⟩ := process_path_nodup ctx hop st path
      (hp path (List.mem_cons_self _ _)) h1 h2
    exact ih _ (fun p hpm => hp p (List.mem_cons_of_mem _ hpm)) h1r h2r

/-- The hop loop preserves node-sequence distinctness of the active set and of
every created path. -/
theorem hop_loop_nodup (ctx : PathExpansion.ExpandCtx) :
    ∀ (fuel hop : Nat) (hs : PathExpansion.HopState),
      (∀ p ∈ hs.active, p.nodes.Nodup) →
      (∀ p ∈ hs.created, p.nodes.Nodup) →
      (∀ p ∈ (PathExpansion.hop_loop ctx hop fuel hs).active, p.nodes.Nodup) ∧
      (∀ p ∈ (PathExpansion.hop_loop ctx hop fuel hs).created, p.nodes.Nodup) := by
  intro fuel
  induction fuel with
  | zero =>
    intro hop hs ha hc
    simp only [PathExpansion.hop_loop]
    exact ⟨ha, hc⟩
  | succ n ih =>
    intro hop hs ha hc
    simp only [PathExpansion.hop_loop, PathExpansion.process_hop]
    obtain ⟨h1, h2⟩ := foldl_process_path_nodup ctx hop hs.active
      { nextPaths := [], best := hs.best, counter := hs.counter,
        created := hs.created } ha (by simp) hc
    have htake : ∀ p ∈ ((hs.active.foldl (PathExpansion.process_path ctx hop)
        { nextPaths := [], best := hs.best, counter := hs.counter,
          created := hs.created }).nextPaths.insertionSort
          (fun a b => b.score ≤ a.score)).take ctx.cfg.topPathsRetain,
        p.nodes.Nodup := fun p hp =>
      h1 p ((List.mem_insertionSort _).1 (List.take_subset _ _ hp))
    split_ifs with hcount hempty hempty2
    · exact ⟨htake, h2⟩
    · exact ih (hop + 1) _ htake h2
    · exact ⟨h1, h2⟩
    · exact ih (hop + 1) _ h1 h2

/-- C3: every path produced during an expansion run — the seed paths, every
extended path and every merged path, as recorded by the run's `created`
ghost list — has a node sequence without repeated node ids. -/
theorem expansion_paths_no_cycle (ctx : PathExpansion.ExpandCtx)
    (initialNodes : List (String × ℝ)) (topK : Nat) (now : ℝ) :
    ∀ p ∈ (PathExpansion.expand_with_path_scoring ctx initialNodes topK now).created,
      p.nodes.Nodup := by
  cases initialNodes with
  | nil => simp [PathExpansion.expand_with_path_scoring]
  | cons i0 irest =>
    intro p hp
    simp only [PathExpansion.expand_with_path_scoring] at hp
    have hseeds : ∀ q ∈ ((i0 :: irest).enum.map
        (fun pr => PathExpansion.seedPath pr.1 pr.2.1 pr.2.2)), q.nodes.Nodup := by
      intro q hq
      rcases List.mem_map.1 hq with ⟨pr, _, rfl⟩
      simp [PathExpansion.seedPath]
    exact (hop_loop_nodup ctx ctx.cfg.maxHops 0 _ hseeds hseeds).2 p hp

/-- Witness for C3: the seed path of the edgeless concrete run, produced by
that run, has distinct nodes. -/
theorem expansion_paths_no_cycle_witness :
    (PathExpansion.seedPath 0 ( "n1" ) 0.9).nodes.Nodup :=
  expansion_paths_no_cycle ctxNoEdges [( "n1", 0.9)] 20 0
    (PathExpansion.seedPath 0 ( "n1" ) 0.9)
    (by rw [no_edges_run]; exact List.mem_singleton.mpr rfl)

/-- Linking two classes leaves the union-find size unchanged. -/
theorem uf_union_size (self : Batteries.UnionFind) (x y : Fin self.size) :
    (self.union x y).size = self.size := by
  unfold Batteries.UnionFind.union
  split
  next self2 ry ey heq =>
    dsimp only
    show ((self2.find _).fst.link _ _ _).arr.size = self.size
    rw [Batteries.UnionFind.arr_link, Batteries.UnionFind.linkAux_size]
    have h2 := Batteries.UnionFind.find_size self2 ⟨↑y, by rw [ey]; exact y.2⟩
    exact h2.trans ey

/-- Pushing a singleton class grows the union-find size by one. -/
theorem uf_push_size (m : Batteries.UnionFind) : m.push.size = m.size + 1 := by
  show m.push.arr.size = _
  rw [Batteries.UnionFind.arr_push, Array.size_push]

/-- The `n`-element initial union-find has size `n`. -/
theorem ufOfSize_size (n : Nat) : (Dedup.ufOfSize n).size = n := by
  induction n with
  | zero => rfl
  | succ k ih =>
    show (Dedup.ufOfSize k).push.size = k + 1
    rw [uf_push_size, ih]

/-- In the initial union-find every class is a singleton. -/
theorem equiv_ufOfSize (n : Nat) (a b : Nat) :
    (Dedup.ufOfSize n).Equiv a b ↔ a = b := by
  induction n with
  | zero => exact Batteries.UnionFind.equiv_empty
  | succ k ih =>
    show (Dedup.ufOfSize k).push.Equiv a b ↔ a = b
    rw [Batteries.UnionFind.equiv_push]
    exact ih

/-- The guarded union preserves the size. -/
theorem ufUnion_size (uf : Batteries.UnionFind) (x y : Nat) :
    (Dedup.ufUnion uf x y).size = uf.size := by
  unfold Dedup.ufUnion
  split
  next h => exact uf_union_size uf ⟨x, h.1⟩ ⟨y, h.2⟩
  next h => rfl

/-- Classes of the guarded union of two in-range indices: the old classes plus
all merges through the united pair. -/
theorem equiv_ufUnion (uf : Batteries.UnionFind) (x y : Nat)
    (hx : x < uf.size) (hy : y < uf.size) (a b : Nat) :
    (Dedup.ufUnion uf x y).Equiv a b ↔
      uf.Equiv a b ∨ (uf.Equiv a x ∧ uf.Equiv y b) ∨ (uf.Equiv a y ∧ uf.Equiv x b) := by
  unfold Dedup.ufUnion
  rw [dif_pos ⟨hx, hy⟩]
  exact Batteries.UnionFind.equiv_union

/-- Mapping a generated equivalence through a relation that lands in another
generated equivalence. -/
theorem eqvGen_bind {α : Type} {r s : α → α → Prop}
    (hrs : ∀ x y, r x y → Relation.EqvGen s x y) {a b : α}
    (h : Relation.EqvGen r a b) : Relation.EqvGen s a b := by
  induction h with
  | rel x y h => exact hrs x y h
  | refl x => exact Relation.EqvGen.refl x
  | symm x y _ ih => exact Relation.EqvGen.symm x y ih
  | trans x y z _ _ ih1 ih2 => exact Relation.EqvGen.trans x y z ih1 ih2

/-- Pointwise-equivalent relations generate the same equivalence. -/
theorem eqvGen_congr {α : Type} {r s : α → α → Prop}
    (hrs : ∀ x y, r x y ↔ s x y) (a b : α) :
    Relation.EqvGen r a b ↔ Relation.EqvGen s a b :=
  ⟨eqvGen_bind (fun x y h => Relation.EqvGen.rel x y ((hrs x y).1 h)),
   eqvGen_bind (fun x y h => Relation.EqvGen.rel x y ((hrs x y).2 h))⟩

/-- Adding the diagonal to a relation does not change its generated
equivalence. -/
theorem eqvGen_or_eq {α : Type} (r : α → α → Prop) (a b : α) :
    Relation.EqvGen (fun x y => r x y ∨ x = y) a b ↔ Relation.EqvGen r a b := by
  constructor
  · exact eqvGen_bind (fun x y h =>
      h.elim (Relation.EqvGen.rel x y) (fun he => he ▸ Relation.EqvGen.refl x))
  · exact eqvGen_bind (fun x y h => Relation.EqvGen.rel x y (Or.inl h))

/-- Characterization of the equivalence generated after adjoining one pair
`(u, v)` to a relation: two elements are related exactly when they were
already related, or they connect through the new pair in one of the two
orientations. -/
theorem eqvGen_add_pair {α : Type} (s : α → α → Prop) (u v : α) (a b : α) :
    Relation.EqvGen (fun x y => s x y ∨ (x = u ∧ y = v)) a b ↔
      Relation.EqvGen s a b ∨
        (Relation.EqvGen s a u ∧ Relation.EqvGen s v b) ∨
        (Relation.EqvGen s a v ∧ Relation.EqvGen s u b) := by
  constructor
  · intro h
    induction h with
    | rel x y h =>
      rcases h with h | ⟨rfl, rfl⟩
      · exact Or.inl (Relation.EqvGen.rel x y h)
      · exact Or.inr (Or.inl ⟨Relation.EqvGen.refl _, Relation.EqvGen.refl _⟩)
    | refl x => exact Or.inl (Relation.EqvGen.refl x)
    | symm x y _ ih =>
      rcases ih with h | ⟨h1, h2⟩ | ⟨h1, h2⟩
      · exact Or.inl (Relation.EqvGen.symm _ _ h)
      · exact Or.inr (Or.inr ⟨Relation.EqvGen.symm _ _ h2, Relation.EqvGen.symm _ _ h1⟩)
      · exact Or.inr (Or.inl ⟨Relation.EqvGen.symm _ _ h2, Relation.EqvGen.symm _ _ h1⟩)
    | trans x y z _ _ ih1 ih2 =>
      rcases ih1 with h1 | ⟨h1, h1b⟩ | ⟨h1, h1b⟩ <;>
        rcases ih2 with h2 | ⟨h2, h2b⟩ | ⟨h2, h2b⟩
      · exact Or.inl (Relation.EqvGen.trans _ _ _ h1 h2)
      · exact Or.inr (Or.inl ⟨Relation.EqvGen.trans _ _ _ h1 h2, h2b⟩)
      · exact Or.inr (Or.inr ⟨Relation.EqvGen.trans _ _ _ h1 h2, h2b⟩)
      · exact Or.inr (Or.inl ⟨h1, Relation.EqvGen.trans _ _ _ h1b h2⟩)
      · exact Or.inl (Relation.EqvGen.trans _ _ _ h1
          (Relation.EqvGen.trans _ _ _ (Relation.EqvGen.symm _ _ h2)
            (Relation.EqvGen.trans _ _ _ (Relation.EqvGen.symm _ _ h1b) h2b)))
      · exact Or.inl (Relation.EqvGen.trans _ _ _ h1 h2b)
      · exact Or.inr (Or.inr ⟨h1, Relation.EqvGen.trans _ _ _ h1b h2⟩)
      · exact Or.inl (Relation.EqvGen.trans _ _ _ h1 h2b)
      · exact Or.inl (Relation.EqvGen.trans _ _ _ h1
          (Relation.EqvGen.trans _ _ _ (Relation.EqvGen.symm _ _ h2)
            (Relation.EqvGen.trans _ _ _ (Relation.EqvGen.symm _ _ h1b) h2b)))
  · intro h
    have hup : Relation.EqvGen (fun x y => s x y ∨ (x = u ∧ y = v)) u v :=
      Relation.EqvGen.rel u v (Or.inr ⟨rfl, rfl⟩)
    have hlift : ∀ {c d : α}, Relation.EqvGen s c d →
        Relation.EqvGen (fun x y => s x y ∨ (x = u ∧ y = v)) c d :=
      fun hcd => eqvGen_bind (fun x y hxy => Relation.EqvGen.rel x y (Or.inl hxy)) hcd
    rcases h with h | ⟨h1, h2⟩ | ⟨h1, h2⟩
    · exact hlift h
    · exact Relation.EqvGen.trans _ _ _ (hlift h1)
        (Relation.EqvGen.trans _ _ _ hup (hlift h2))
    · exact Relation.EqvGen.trans _ _ _ (hlift h1)
        (Relation.EqvGen.trans _ _ _ (Relation.EqvGen.symm _ _ hup) (hlift h2))

/-- Endpoints of a non-trivially generated equivalence lie in the field of
the relation's bound. -/
theorem eqvGen_bounds {r : Nat → Nat → Prop} {n : Nat}
    (hb : ∀ x y, r x y → x < n ∧ y < n) {a b : Nat}
    (h : Relation.EqvGen r a b) : a = b ∨ (a < n ∧ b < n) := by
  induction h with
  | rel x y h => exact Or.inr (hb x y h)
  | refl x => exact Or.inl rfl
  | symm x y _ ih =>
    rcases ih with h | ⟨h1, h2⟩
    · exact Or.inl h.symm
    · exact Or.inr ⟨h2, h1⟩
  | trans x y z _ _ ih1 ih2 =>
    rcases ih1 with h1 | ⟨h1, h1b⟩
    · rcases ih2 with h2 | ⟨h2, h2b⟩
      · exact Or.inl (h1.trans h2)
      · exact Or.inr ⟨h1 ▸ h2, h2b⟩
    · rcases ih2 with h2 | ⟨h2, h2b⟩
      · exact Or.inr ⟨h1, h2 ▸ h1b⟩
      · exact Or.inr ⟨h1, h2b⟩

/-- Distinct endpoints of a generated equivalence each touch an edge of the
underlying relation. -/
theorem eqvGen_edges {α : Type} {r : α → α → Prop} {a b : α}
    (h : Relation.EqvGen r a b) :
    a = b ∨ ((∃ k, r a k ∨ r k a) ∧ (∃ k, r b k ∨ r k b)) := by
  induction h with
  | rel x y h => exact Or.inr ⟨⟨y, Or.inl h⟩, ⟨x, Or.inr h⟩⟩
  | refl x => exact Or.inl rfl
  | symm x y _ ih =>
    rcases ih with h | ⟨h1, h2⟩
    · exact Or.inl h.symm
    · exact Or.inr ⟨h2, h1⟩
  | trans x y z _ _ ih1 ih2 =>
    rcases ih1 with h1 | ⟨h1, h1b⟩
    · rcases ih2 with h2 | ⟨h2, h2b⟩
      · exact Or.inl (h1.trans h2)
      · exact Or.inr ⟨h1 ▸ h2, h2b⟩
    · rcases ih2 with h2 | ⟨h2, h2b⟩
      · exact Or.inr ⟨h1, h2 ▸ h1b⟩
      · exact Or.inr ⟨h1, h2b⟩

/-- Folding guarded unions over a pair list merges exactly the equivalence
generated by those pairs on top of the starting partition. -/
theorem equiv_fold :
    ∀ (ps : List (Nat × Nat)) (uf : Batteries.UnionFind),
      (∀ p ∈ ps, p.1 < uf.size ∧ p.2 < uf.size) → ∀ a b,
      (ps.foldl (fun u p => Dedup.ufUnion u p.1 p.2) uf).Equiv a b ↔
        Relation.EqvGen (fun x y => (x, y) ∈ ps ∨ uf.Equiv x y) a b := by
  intro ps
  induction ps with
  | nil =>
    intro uf hb a b
    simp only [List.foldl_nil]
    rw [eqvGen_congr (fun x y =>
      (by simp : ((x, y) ∈ ([] : List (Nat × Nat)) ∨ uf.Equiv x y) ↔ uf.Equiv x y)) a b]
    exact Iff.symm (Equivalence.eqvGen_iff (show Equivalence uf.Equiv from
      ⟨fun x => rfl, fun h => h.symm, fun h1 h2 => h1.trans h2⟩))
  | cons p ps ih =>
    intro uf hb a b
    simp only [List.foldl_cons]
    have hp := hb p (List.mem_cons_self _ _)
    have hb2 : ∀ q ∈ ps, q.1 < (Dedup.ufUnion uf p.1 p.2).size ∧
        q.2 < (Dedup.ufUnion uf p.1 p.2).size := by
      intro q hq
      rw [ufUnion_size]
      exact hb q (List.mem_cons_of_mem _ hq)
    rw [ih (Dedup.ufUnion uf p.1 p.2) hb2 a b]
    constructor
    · refine eqvGen_bind (fun x y h => ?_)
      rcases h with h | h
      · exact Relation.EqvGen.rel x y (Or.inl (List.mem_cons_of_mem _ h))
      · rw [equiv_ufUnion uf p.1 p.2 hp.1 hp.2] at h
        rcases h with h | ⟨h1, h2⟩ | ⟨h1, h2⟩
        · exact Relation.EqvGen.rel x y (Or.inr h)
        · exact Relation.EqvGen.trans _ _ _
            (Relation.EqvGen.rel _ _ (Or.inr h1))
            (Relation.EqvGen.trans _ _ _
              (Relation.EqvGen.rel p.1 p.2 (Or.inl (List.mem_cons_self p ps)))
              (Relation.EqvGen.rel _ _ (Or.inr h2)))
        · exact Relation.EqvGen.trans _ _ _
            (Relation.EqvGen.rel _ _ (Or.inr h1))
            (Relation.EqvGen.trans _ _ _
              (Relation.EqvGen.symm _ _
                (Relation.EqvGen.rel p.1 p.2 (Or.inl (List.mem_cons_self p ps))))
              (Relation.EqvGen.rel _ _ (Or.inr h2)))
    · refine eqvGen_bind (fun x y h => ?_)
      rcases h with h | h
      · rcases List.mem_cons.1 h with h1 | h1
        · have hx : p.1 = x := (congrArg Prod.fst h1).symm
          have hy : p.2 = y := (congrArg Prod.snd h1).symm
          exact Relation.EqvGen.rel x y (Or.inr
            ((equiv_ufUnion uf p.1 p.2 hp.1 hp.2 x y).2
              (Or.inr (Or.inl ⟨by rw [hx]; exact rfl, by rw [hy]; exact rfl⟩))))
        · exact Relation.EqvGen.rel x y (Or.inl h1)
      · exact Relation.EqvGen.rel x y
          (Or.inr ((equiv_ufUnion uf p.1 p.2 hp.1 hp.2 x y).2 (Or.inl h)))

/-- The similarity matrix is symmetric. -/
theorem sim_matrix_symm (embs : List (Option (List ℝ))) (i j : Nat) :
    Dedup.sim_matrix embs i j = Dedup.sim_matrix embs j i := by
  unfold Dedup.sim_matrix
  rcases lt_trichotomy i j with h | h | h
  · rw [if_pos h, if_neg (lt_asymm h), if_pos h]
  · subst h
    rfl
  · rw [if_neg (lt_asymm h), if_pos h, if_pos h]

/-- Membership in the merged-pair list. -/
theorem mem_dup_pairs (embs : List (Option (List ℝ))) (threshold : ℝ)
    (n x y : Nat) :
    (x, y) ∈ Dedup.dup_pairs embs threshold n ↔
      x < n ∧ y < n ∧ x < y ∧ threshold ≤ Dedup.sim_matrix embs x y := by
  unfold Dedup.dup_pairs
  simp only [List.mem_flatten, List.mem_map, List.mem_filter, List.mem_range,
    decide_eq_true_eq]
  constructor
  · rintro ⟨l, ⟨i, hi, rfl⟩, hmem⟩
    rcases List.mem_map.1 hmem with ⟨j, hj, hpair⟩
    rcases List.mem_filter.1 hj with ⟨hjr, hcond⟩
    rw [Prod.mk.injEq] at hpair
    obtain ⟨rfl, rfl⟩ := hpair
    rw [decide_eq_true_eq] at hcond
    exact ⟨hi, List.mem_range.1 hjr, hcond.1, hcond.2⟩
  · rintro ⟨hx, hy, hlt, hsim⟩
    refine ⟨((List.range n).filter
        (fun j => x < j ∧ threshold ≤ Dedup.sim_matrix embs x j)).map
        (fun j => (x, j)), ⟨x, hx, rfl⟩, ?_⟩
    exact List.mem_map.2 ⟨y, List.mem_filter.2
      ⟨List.mem_range.2 hy, by rw [decide_eq_true_eq]; exact ⟨hlt, hsim⟩⟩, rfl⟩

/-- The deduplication union-find's partition is exactly transitive
above-threshold similarity. -/
theorem dedup_uf_equiv (embs : List (Option (List ℝ))) (threshold : ℝ)
    (n a b : Nat) :
    (Dedup.dedup_uf embs threshold n).Equiv a b ↔
      Relation.EqvGen (similar_related embs threshold n) a b := by
  unfold Dedup.dedup_uf
  have hb : ∀ p ∈ Dedup.dup_pairs embs threshold n,
      p.1 < (Dedup.ufOfSize n).size ∧ p.2 < (Dedup.ufOfSize n).size := by
    intro p hp
    obtain ⟨x, y⟩ := p
    obtain ⟨h1, h2, _, _⟩ := (mem_dup_pairs embs threshold n x y).1 hp
    rw [ufOfSize_size]
    exact ⟨h1, h2⟩
  rw [equiv_fold _ _ hb a b]
  rw [eqvGen_congr (fun x y => by rw [equiv_ufOfSize]) a b]
  rw [eqvGen_or_eq]
  constructor
  · refine eqvGen_bind (fun x y h => ?_)
    rw [mem_dup_pairs] at h
    exact Relation.EqvGen.rel x y ⟨h.1, h.2.1, Nat.ne_of_lt h.2.2.1, h.2.2.2⟩
  · refine eqvGen_bind (fun x y h => ?_)
    obtain ⟨hx, hy, hne, hsim⟩ := h
    rcases Nat.lt_or_ge x y with hlt | hge
    · exact Relation.EqvGen.rel x y
        ((mem_dup_pairs embs threshold n x y).2 ⟨hx, hy, hlt, hsim⟩)
    · have hlt : y < x := lt_of_le_of_ne hge (Ne.symm hne)
      exact Relation.EqvGen.symm _ _ (Relation.EqvGen.rel y x
        ((mem_dup_pairs embs threshold n y x).2
          ⟨hy, hx, hlt, by rw [sim_matrix_symm]; exact hsim⟩))

/-- Adding an index to its root's group preserves root coherence of every
group. -/
theorem addToGroup_coh (uf : Batteries.UnionFind) (i : Nat) :
    ∀ (acc : List (Nat × List Nat)),
      (∀ pr ∈ acc, ∀ j ∈ pr.2, uf.rootD j = pr.1) →
      ∀ pr ∈ Dedup.addToGroup acc (uf.rootD i) i, ∀ j ∈ pr.2, uf.rootD j = pr.1 := by
  intro acc
  induction acc with
  | nil =>
    intro h pr hpr j hj
    simp only [Dedup.addToGroup, List.mem_singleton] at hpr
    subst hpr
    rcases List.mem_singleton.1 hj with rfl
    rfl
  | cons e rest ih =>
    obtain ⟨k, g⟩ := e
    intro h pr hpr j hj
    simp only [Dedup.addToGroup] at hpr
    split_ifs at hpr with hk
    · rcases List.mem_cons.1 hpr with h1 | h1
      · subst h1
        rcases List.mem_append.1 hj with h2 | h2
        · exact h (k, g) (List.mem_cons_self _ _) j h2
        · rcases List.mem_singleton.1 h2 with rfl
          exact hk.symm
      · exact h pr (List.mem_cons_of_mem _ h1) j hj
    · rcases List.mem_cons.1 hpr with h1 | h1
      · subst h1
        exact h (k, g) (List.mem_cons_self _ _) j hj
      · exact ih (fun pr2 hpr2 => h pr2 (List.mem_cons_of_mem _ hpr2)) pr h1 j hj

/-- The index just added lands in some group keyed by its root. -/
theorem addToGroup_exists (r i : Nat) :
    ∀ acc : List (Nat × List Nat),
      ∃ pr ∈ Dedup.addToGroup acc r i, i ∈ pr.2 ∧ pr.1 = r := by
  intro acc
  induction acc with
  | nil =>
    exact ⟨(r, [i]), List.mem_singleton.2 rfl, List.mem_singleton.2 rfl, rfl⟩
  | cons e rest ih =>
    obtain ⟨k, g⟩ := e
    simp only [Dedup.addToGroup]
    split_ifs with hk
    · exact ⟨(k, g ++ [i]), List.mem_cons_self _ _,
        List.mem_append_right _ (List.mem_singleton.2 rfl), hk⟩
    · obtain ⟨pr, hpr, hi, hk2⟩ := ih
      exact ⟨pr, List.mem_cons_of_mem _ hpr, hi, hk2⟩

/-- Existing groups persist (possibly extended) through an addition. -/
theorem addToGroup_mono (r i : Nat) :
    ∀ (acc : List (Nat × List Nat)) (pr0 : Nat × List Nat), pr0 ∈ acc →
      ∃ pr ∈ Dedup.addToGroup acc r i, pr.1 = pr0.1 ∧ ∀ j ∈ pr0.2, j ∈ pr.2 := by
  intro acc
  induction acc with
  | nil =>
    intro pr0 h
    exact absurd h (List.not_mem_nil _)
  | cons e rest ih =>
    obtain ⟨k, g⟩ := e
    intro pr0 h
    simp only [Dedup.addToGroup]
    split_ifs with hk
    · rcases List.mem_cons.1 h with h1 | h1
      · subst h1
        exact ⟨(k, g ++ [i]), List.mem_cons_self _ _, rfl,
          fun j hj => List.mem_append_left _ hj⟩
      · exact ⟨pr0, List.mem_cons_of_mem _ h1, rfl, fun j hj => hj⟩
    · rcases List.mem_cons.1 h with h1 | h1
      · subst h1
        exact ⟨(k, g), List.mem_cons_self _ _, rfl, fun j hj => hj⟩
      · obtain ⟨pr, hpr, hk2, hsub⟩ := ih pr0 h1
        exact ⟨pr, List.mem_cons_of_mem _ hpr, hk2, hsub⟩

/-- Key list of an addition: unchanged when the root is already present,
extended by it otherwise. -/
theorem addToGroup_keys (r i : Nat) :
    ∀ acc : List (Nat × List Nat),
      (Dedup.addToGroup acc r i).map Prod.fst =
        if r ∈ acc.map Prod.fst then acc.map Prod.fst
        else acc.map Prod.fst ++ [r] := by
  intro acc
  induction acc with
  | nil => simp [Dedup.addToGroup]
  | cons e rest ih =>
    obtain ⟨k, g⟩ := e
    by_cases hk : k = r
    · subst hk
      simp [Dedup.addToGroup]
    · simp only [Dedup.addToGroup, if_neg hk, List.map_cons, ih]
      by_cases hr : r ∈ rest.map Prod.fst
      · simp [hr]
      · simp [hr, Ne.symm hk]

/-- Additions preserve distinctness of the group keys. -/
theorem addToGroup_keys_nodup (r i : Nat) (acc : List (Nat × List Nat))
    (h : (acc.map Prod.fst).Nodup) :
    ((Dedup.addToGroup acc r i).map Prod.fst).Nodup := by
  rw [addToGroup_keys]
  split_ifs with hr
  · exact h
  · rw [List.nodup_append]
    exact ⟨h, List.nodup_singleton _, by simpa [List.disjoint_singleton] using hr⟩

/-- One addition appends exactly the new index to the multiset of grouped
indices. -/
theorem addToGroup_flatten_perm (r i : Nat) :
    ∀ acc : List (Nat × List Nat),
      List.Perm ((Dedup.addToGroup acc r i).map (fun pr => pr.2)).flatten
        ((acc.map (fun pr => pr.2)).flatten ++ [i]) := by
  intro acc
  induction acc with
  | nil => simp [Dedup.addToGroup]
  | cons e rest ih =>
    obtain ⟨k, g⟩ := e
    simp only [Dedup.addToGroup]
    split_ifs with hk
    · simp only [List.map_cons, List.flatten_cons, List.append_assoc]
      exact (List.Perm.append_left g (List.perm_append_comm)).symm.symm
    · simp only [List.map_cons, List.flatten_cons, List.append_assoc]
      exact List.Perm.append_left g ih

/-- Folding the grouping step appends exactly the scanned indices to the
multiset of grouped indices. -/
theorem fold_groups_flatten_perm (uf : Batteries.UnionFind) :
    ∀ (is : List Nat) (acc : List (Nat × List Nat)),
      List.Perm (((is.foldl (fun a i => Dedup.addToGroup a (uf.rootD i) i) acc)).map
          (fun pr => pr.2)).flatten
        ((acc.map (fun pr => pr.2)).flatten ++ is) := by
  intro is
  induction is with
  | nil =>
    intro acc
    simp
  | cons i rest ih =>
    intro acc
    simp only [List.foldl_cons]
    refine (ih (Dedup.addToGroup acc (uf.rootD i) i)).trans ?_
    have h := List.Perm.append_right rest (addToGroup_flatten_perm (uf.rootD i) i acc)
    refine h.trans ?_
    rw [List.append_assoc]
    exact List.Perm.append_left _ (by simp)

/-- The grouping fold preserves root coherence. -/
theorem fold_groups_coh (uf : Batteries.UnionFind) :
    ∀ (is : List Nat) (acc : List (Nat × List Nat)),
      (∀ pr ∈ acc, ∀ j ∈ pr.2, uf.rootD j = pr.1) →
      ∀ pr ∈ is.foldl (fun a i => Dedup.addToGroup a (uf.rootD i) i) acc,
        ∀ j ∈ pr.2, uf.rootD j = pr.1 := by
  intro is
  induction is with
  | nil => intro acc h; exact h
  | cons i rest ih =>
    intro acc h
    exact ih _ (addToGroup_coh uf i acc h)

/-- The grouping fold preserves key distinctness. -/
theorem fold_groups_keys_nodup (uf : Batteries.UnionFind) :
    ∀ (is : List Nat) (acc : List (Nat × List Nat)),
      (acc.map Prod.fst).Nodup →
      (((is.foldl (fun a i => Dedup.addToGroup a (uf.rootD i) i) acc)).map
        Prod.fst).Nodup := by
  intro is
  induction is with
  | nil => intro acc h; exact h
  | cons i rest ih =>
    intro acc h
    exact ih _ (addToGroup_keys_nodup (uf.rootD i) i acc h)

/-- Group membership persists through the grouping fold. -/
theorem fold_groups_mono (uf : Batteries.UnionFind) :
    ∀ (is : List Nat) (acc : List (Nat × List Nat)) (pr0 : Nat × List Nat),
      pr0 ∈ acc →
      ∃ pr ∈ is.foldl (fun a i => Dedup.addToGroup a (uf.rootD i) i) acc,
        pr.1 = pr0.1 ∧ ∀ j ∈ pr0.2, j ∈ pr.2 := by
  intro is
  induction is with
  | nil =>
    intro acc pr0 h
    exact ⟨pr0, h, rfl, fun j hj => hj⟩
  | cons i rest ih =>
    intro acc pr0 h
    obtain ⟨pr1, hpr1, hk1, hs1⟩ := addToGroup_mono (uf.rootD i) i acc pr0 h
    obtain ⟨pr, hpr, hk, hs⟩ := ih _ pr1 hpr1
    exact ⟨pr, hpr, hk.trans hk1, fun j hj => hs j (hs1 j hj)⟩

/-- Every scanned index ends up in a group keyed by its root. -/
theorem fold_groups_exists (uf : Batteries.UnionFind) :
    ∀ (is : List Nat) (acc : List (Nat × List Nat)) (i : Nat), i ∈ is →
      ∃ pr ∈ is.foldl (fun a i => Dedup.addToGroup a (uf.rootD i) i) acc,
        i ∈ pr.2 ∧ uf.rootD i = pr.1 := by
  intro is
  induction is with
  | nil =>
    intro acc i h
    exact absurd h (List.not_mem_nil _)
  | cons i0 rest ih =>
    intro acc i h
    rcases List.mem_cons.1 h with h1 | h1
    · subst h1
      obtain ⟨pr1, hpr1, hi1, hk1⟩ := addToGroup_exists (uf.rootD i) i acc
      obtain ⟨pr, hpr, hk, hs⟩ := fold_groups_mono uf rest _ pr1 hpr1
      exact ⟨pr, hpr, hs i hi1, by rw [hk, hk1]⟩
    · exact ih _ i h1

/-- With distinct keys, entries sharing a key coincide. -/
theorem mem_keys_nodup_unique {β : Type} :
    ∀ (l : List (Nat × β)), (l.map Prod.fst).Nodup →
      ∀ pr ∈ l, ∀ pr2 ∈ l, pr.1 = pr2.1 → pr = pr2 := by
  intro l
  induction l with
  | nil =>
    intro _ pr h
    exact absurd h (List.not_mem_nil _)
  | cons e rest ih =>
    intro hnd pr hpr pr2 hpr2 hk
    rw [List.map_cons, List.nodup_cons] at hnd
    rcases List.mem_cons.1 hpr with h1 | h1 <;> rcases List.mem_cons.1 hpr2 with h2 | h2
    · rw [h1, h2]
    · exfalso
      apply hnd.1
      rw [h1] at hk
      rw [hk]
      exact List.mem_map_of_mem Prod.fst h2
    · exfalso
      apply hnd.1
      rw [h2] at hk
      rw [← hk]
      exact List.mem_map_of_mem Prod.fst h1
    · exact ih hnd.2 pr h1 pr2 h2 hk

/-- A list containing two distinct elements has length above one. -/
theorem one_lt_length_of_mem_ne {g : List Nat} {i j : Nat} (hi : i ∈ g)
    (hj : j ∈ g) (hne : i ≠ j) : 1 < g.length := by
  match g with
  | [] => exact absurd hi (List.not_mem_nil _)
  | [a] =>
    rcases List.mem_singleton.1 hi with rfl
    rcases List.mem_singleton.1 hj with rfl
    exact absurd rfl hne
  | a :: b :: t => simp [Nat.lt_add_of_pos_left]

/-- The grouped indices of the groups dict are a permutation of `range n`. -/
theorem groups_dict_flatten_perm (uf : Batteries.UnionFind) (n : Nat) :
    List.Perm ((Dedup.groups_dict uf n).map (fun pr => pr.2)).flatten
      (List.range n) := by
  have h := fold_groups_flatten_perm uf (List.range n) []
  simpa [Dedup.groups_dict] using h

/-- Every member of a groups-dict entry has the entry's key as root. -/
theorem groups_dict_coh (uf : Batteries.UnionFind) (n : Nat) :
    ∀ pr ∈ Dedup.groups_dict uf n, ∀ j ∈ pr.2, uf.rootD j = pr.1 :=
  fold_groups_coh uf (List.range n) []
    (fun pr h => absurd h (List.not_mem_nil _))

/-- Every index below `n` appears in a groups-dict entry keyed by its root. -/
theorem groups_dict_exists (uf : Batteries.UnionFind) (n i : Nat) (hi : i < n) :
    ∃ pr ∈ Dedup.groups_dict uf n, i ∈ pr.2 ∧ uf.rootD i = pr.1 :=
  fold_groups_exists uf (List.range n) [] i (List.mem_range.2 hi)

/-- The groups dict has distinct keys. -/
theorem groups_dict_keys_nodup (uf : Batteries.UnionFind) (n : Nat) :
    ((Dedup.groups_dict uf n).map Prod.fst).Nodup :=
  fold_groups_keys_nodup uf (List.range n) [] (by simp)

/-- Members of groups-dict entries are below `n`. -/
theorem groups_dict_mem_lt (uf : Batteries.UnionFind) (n : Nat) :
    ∀ pr ∈ Dedup.groups_dict uf n, ∀ j ∈ pr.2, j < n := by
  intro pr hpr j hj
  have hfl : j ∈ ((Dedup.groups_dict uf n).map (fun pr => pr.2)).flatten :=
    List.mem_flatten.2 ⟨pr.2, List.mem_map_of_mem _ hpr, hj⟩
  exact List.mem_range.1 ((groups_dict_flatten_perm uf n).mem_iff.1 hfl)

/-- The grouped indices are distinct overall: groups are duplicate-free and
pairwise disjoint. -/
theorem groups_dict_flatten_nodup (uf : Batteries.UnionFind) (n : Nat) :
    (((Dedup.groups_dict uf n).map (fun pr => pr.2)).flatten).Nodup :=
  ((groups_dict_flatten_perm uf n).nodup_iff).2 (List.nodup_range n)

/-- Two distinct indices share a duplicate group exactly when they are
transitively connected by above-threshold similarity. -/
theorem in_same_duplicate_group_iff (entries : List Dedup.MemoryWithEmbedding)
    (threshold : ℝ) (i j : Nat) (hne : i ≠ j) :
    in_same_duplicate_group entries threshold i j ↔
      similar_connected (entries.map (fun e => e.embedding)) threshold
        entries.length i j := by
  unfold in_same_duplicate_group Dedup.find_duplicate_groups similar_connected
  constructor
  · rintro ⟨grp, hgrp, hi, hj⟩
    rcases List.mem_filter.1 hgrp with ⟨hmap, hlen⟩
    rcases List.mem_map.1 hmap with ⟨pr, hpr, rfl⟩
    have hri := groups_dict_coh _ _ pr hpr i hi
    have hrj := groups_dict_coh _ _ pr hpr j hj
    exact (dedup_uf_equiv _ threshold _ i j).1 (hri.trans hrj.symm)
  · intro h
    have hequiv := (dedup_uf_equiv (entries.map (fun e => e.embedding)) threshold
      entries.length i j).2 h
    rcases eqvGen_bounds (fun x y hxy => ⟨hxy.1, hxy.2.1⟩) h with heq | ⟨hi, hj⟩
    · exact absurd heq hne
    · obtain ⟨pri, hpri, hii, hki⟩ := groups_dict_exists _ entries.length i hi
      obtain ⟨prj, hprj, hjj, hkj⟩ := groups_dict_exists _ entries.length j hj
      have heq : pri = prj := mem_keys_nodup_unique _
        (groups_dict_keys_nodup _ entries.length) pri hpri prj hprj
        (by rw [← hki, ← hkj]; exact hequiv)
      rcases heq with rfl
      refine ⟨pri.2, List.mem_filter.2 ⟨List.mem_map_of_mem _ hpri, ?_⟩, hii, hjj⟩
      rw [decide_eq_true_eq]
      exact one_lt_length_of_mem_ne hii hjj hne

/-- Merging a non-empty group keeps the memory of a highest-scoring entry and
blends the scores into their rank-weighted average taken in descending
order. -/
theorem merge_memory_group_spec (group : List Dedup.MemoryWithEmbedding)
    (hne : group ≠ []) :
    ∃ b ∈ group,
      (∀ x ∈ group, x.entry.score ≤ b.entry.score) ∧
      (Dedup.merge_memory_group group).mem = b.entry.mem ∧
      (Dedup.merge_memory_group group).score =
        rank_weighted_average ((group.insertionSort
          (fun a b => b.entry.score ≤ a.entry.score)).map (fun e => e.entry.score)) := by
  haveI hTot : IsTotal Dedup.MemoryWithEmbedding
      (fun a b => b.entry.score ≤ a.entry.score) :=
    ⟨fun a b => le_total b.entry.score a.entry.score⟩
  haveI hTrans : IsTrans Dedup.MemoryWithEmbedding
      (fun a b => b.entry.score ≤ a.entry.score) :=
    ⟨fun a b c h1 h2 => le_trans h2 h1⟩
  unfold Dedup.merge_memory_group
  cases hs : group.insertionSort (fun a b => b.entry.score ≤ a.entry.score) with
  | nil =>
    exfalso
    have hperm := List.perm_insertionSort
      (fun a b : Dedup.MemoryWithEmbedding => b.entry.score ≤ a.entry.score) group
    rw [hs] at hperm
    exact hne hperm.symm.eq_nil
  | cons bestE rest =>
    have hperm := List.perm_insertionSort
      (fun a b : Dedup.MemoryWithEmbedding => b.entry.score ≤ a.entry.score) group
    rw [hs] at hperm
    have hsorted := List.sorted_insertionSort
      (fun a b : Dedup.MemoryWithEmbedding => b.entry.score ≤ a.entry.score) group
    rw [hs] at hsorted
    refine ⟨bestE, hperm.subset (List.mem_cons_self _ _), ?_, ?_, ?_⟩
    · intro x hx
      rcases List.mem_cons.1 (hperm.mem_iff.2 hx) with h1 | h1
      · rw [h1]
      · exact List.rel_of_sorted_cons hsorted x h1
    · rfl
    · show (if 0 < ((List.map (fun e => e.entry.score) (bestE :: rest)).enum.map
          (fun p => 1 / ((p.1 : ℝ) + 1))).sum then
            ((List.map (fun e => e.entry.score) (bestE :: rest)).enum.map
              (fun p => p.2 * (1 / ((p.1 : ℝ) + 1)))).sum /
            ((List.map (fun e => e.entry.score) (bestE :: rest)).enum.map
              (fun p => 1 / ((p.1 : ℝ) + 1))).sum
          else bestE.entry.score) =
        rank_weighted_average ((bestE :: rest).map (fun e => e.entry.score))
      have htw : 0 < ((List.map (fun e => e.entry.score) (bestE :: rest)).enum.map
          (fun p => 1 / ((p.1 : ℝ) + 1))).sum := by
        refine List.sum_pos _ (fun x hx => ?_) (by simp)
        rcases List.mem_map.1 hx with ⟨p, _, rfl⟩
        positivity
      rw [if_pos htw]
      unfold rank_weighted_average
      simp only [mul_one_div]

/-- The merge loop only appends to its output. -/
theorem merge_group_loop_out_mono (entries : List Dedup.MemoryWithEmbedding) :
    ∀ (gs : List (List Nat)) (processed : List Nat) (out : List Dedup.ScoredMemory),
      ∀ e ∈ out, e ∈ (Dedup.merge_group_loop entries gs processed out).2 := by
  intro gs
  induction gs with
  | nil =>
    intro processed out e he
    exact he
  | cons g0 gs ih =>
    intro processed out e he
    simp only [Dedup.merge_group_loop]
    split_ifs with hguard
    · exact ih _ _ e he
    · exact ih _ _ e (List.mem_append_left _ he)

/-- With pairwise-disjoint groups none of which overlaps the processed set,
every group's merge result reaches the output. -/
theorem merge_group_loop_mem (entries : List Dedup.MemoryWithEmbedding) :
    ∀ (gs : List (List Nat)) (processed : List Nat) (out : List Dedup.ScoredMemory),
      List.Pairwise List.Disjoint gs →
      (∀ g ∈ gs, ∀ i ∈ g, i ∉ processed) →
      ∀ g ∈ gs, Dedup.merge_memory_group (g.filterMap (fun i => entries[i]?)) ∈
        (Dedup.merge_group_loop entries gs processed out).2 := by
  intro gs
  induction gs with
  | nil =>
    intro processed out _ _ g hg
    exact absurd hg (List.not_mem_nil _)
  | cons g0 gs ih =>
    intro processed out hdisj hproc g hg
    simp only [Dedup.merge_group_loop]
    have hguard : ¬ (g0.any (fun i => decide (i ∈ processed)) = true) := by
      rw [List.any_eq_true]
      rintro ⟨i, hi, hdec⟩
      exact hproc g0 (List.mem_cons_self _ _) i hi (of_decide_eq_true hdec)
    rw [if_neg hguard]
    rcases List.mem_cons.1 hg with rfl | hg2
    · exact merge_group_loop_out_mono entries gs _ _ _
        (List.mem_append_right _ (List.mem_singleton.2 rfl))
    · have hd := List.pairwise_cons.1 hdisj
      refine ih _ _ hd.2 (fun g2 hg2m i hi hmem => ?_) g hg2
      rcases List.mem_append.1 hmem with h1 | h1
      · exact hproc g2 (List.mem_cons_of_mem _ hg2m) i hi h1
      · exact hd.1 g2 hg2m h1 hi

/-- With pairwise-disjoint unprocessed groups, the final processed set is the
initial one extended by every group's indices. -/
theorem merge_group_loop_processed (entries : List Dedup.MemoryWithEmbedding) :
    ∀ (gs : List (List Nat)) (processed : List Nat) (out : List Dedup.ScoredMemory),
      List.Pairwise List.Disjoint gs →
      (∀ g ∈ gs, ∀ i ∈ g, i ∉ processed) →
      (Dedup.merge_group_loop entries gs processed out).1 = processed ++ gs.flatten := by
  intro gs
  induction gs with
  | nil =>
    intro processed out _ _
    simp [Dedup.merge_group_loop]
  | cons g0 gs ih =>
    intro processed out hdisj hproc
    simp only [Dedup.merge_group_loop]
    have hguard : ¬ (g0.any (fun i => decide (i ∈ processed)) = true) := by
      rw [List.any_eq_true]
      rintro ⟨i, hi, hdec⟩
      exact hproc g0 (List.mem_cons_self _ _) i hi (of_decide_eq_true hdec)
    rw [if_neg hguard]
    have hd := List.pairwise_cons.1 hdisj
    rw [ih (processed ++ g0) _ hd.2 (fun g2 hg2m i hi hmem => ?_)]
    · simp [List.append_assoc]
    · rcases List.mem_append.1 hmem with h1 | h1
      · exact hproc g2 (List.mem_cons_of_mem _ hg2m) i hi h1
      · exact hd.1 g2 hg2m h1 hi

/-- The duplicate groups are pairwise disjoint, duplicate-free, above size
one, populated by in-range indices only. -/
theorem find_duplicate_groups_props (entries : List Dedup.MemoryWithEmbedding)
    (threshold : ℝ) :
    List.Pairwise List.Disjoint (Dedup.find_duplicate_groups entries threshold) ∧
    (∀ g ∈ Dedup.find_duplicate_groups entries threshold,
      g.Nodup ∧ 1 < g.length ∧ ∀ i ∈ g, i < entries.length) := by
  unfold Dedup.find_duplicate_groups
  have hnd := groups_dict_flatten_nodup
    (Dedup.dedup_uf (entries.map (fun e => e.embedding)) threshold entries.length)
    entries.length
  rw [List.nodup_flatten] at hnd
  constructor
  · exact hnd.2.sublist (List.filter_sublist _)
  · intro g hg
    rcases List.mem_filter.1 hg with ⟨hmap, hlen⟩
    refine ⟨hnd.1 g hmap, by rw [decide_eq_true_eq] at hlen; exact hlen, ?_⟩
    rcases List.mem_map.1 hmap with ⟨pr, hpr, rfl⟩
    exact groups_dict_mem_lt _ _ pr hpr

/-- A duplicate group's fetched entry list is non-empty. -/
theorem group_entries_ne_nil (entries : List Dedup.MemoryWithEmbedding)
    {g : List Nat} (hlen : 1 < g.length)
    (hbound : ∀ i ∈ g, i < entries.length) :
    g.filterMap (fun i => entries[i]?) ≠ [] := by
  match g with
  | [] => simp at hlen
  | i :: t =>
    have hi : i < entries.length := hbound i (List.mem_cons_self _ _)
    simp only [List.filterMap_cons, List.getElem?_eq_getElem hi]
    exact List.cons_ne_nil _ _

/-- Evaluated similarity of the two orthogonal example embeddings. -/
theorem pair_similarity_orth_eval :
    Dedup.pair_similarity (some [(1:ℝ), 0]) (some [(0:ℝ), 1]) = 0 := by
  norm_num [Dedup.pair_similarity, cosine_similarity, vecNorm, dot, clip01]

/-- A duplicate-free list of length above one contains an element different
from any given value. -/
theorem exists_mem_ne {g : List Nat} (hlen : 1 < g.length) (hnd : g.Nodup)
    (i : Nat) : ∃ j ∈ g, j ≠ i := by
  match g with
  | [] => simp at hlen
  | [a] => simp at hlen
  | a :: c :: t =>
    rcases List.nodup_cons.1 hnd with ⟨hna, _⟩
    have hac : a ≠ c := fun h => hna (h ▸ List.mem_cons_self _ _)
    by_cases hai : a = i
    · exact ⟨c, List.mem_cons_of_mem _ (List.mem_cons_self _ _),
        fun hc => hac (hai.trans hc.symm)⟩
    · exact ⟨a, List.mem_cons_self _ _, hai⟩

/-- C6: deduplication correctness.  (1) Two distinct input positions lie in a
common duplicate group exactly when their memories are connected transitively
by pairwise similarity at or above the threshold.  (2) Every duplicate
group's merge keeps a highest-scoring member's memory as representative,
blends the scores into the rank-weighted average (weight `1/(1+rank)` in
descending score order), and that merged entry appears in the output.
(3) A memory below the threshold with every other memory passes through
standalone, score and extra data unchanged. -/
theorem deduplicate_groups_and_scores (ms : List Dedup.ScoredMemory) (θ : ℝ) :
    (∀ i j : Nat, i ≠ j →
      (in_same_duplicate_group (Dedup.attach_embeddings ms) θ i j ↔
        similar_connected ((Dedup.attach_embeddings ms).map (fun e => e.embedding))
          θ ms.length i j)) ∧
    (∀ grp ∈ Dedup.find_duplicate_groups (Dedup.attach_embeddings ms) θ,
      (∃ b ∈ grp.filterMap (fun i => (Dedup.attach_embeddings ms)[i]?),
        (∀ x ∈ grp.filterMap (fun i => (Dedup.attach_embeddings ms)[i]?),
          x.entry.score ≤ b.entry.score) ∧
        (Dedup.merge_memory_group
          (grp.filterMap (fun i => (Dedup.attach_embeddings ms)[i]?))).mem =
          b.entry.mem) ∧
      (Dedup.merge_memory_group
        (grp.filterMap (fun i => (Dedup.attach_embeddings ms)[i]?))).score =
        rank_weighted_average (((grp.filterMap
          (fun i => (Dedup.attach_embeddings ms)[i]?)).insertionSort
          (fun a b => b.entry.score ≤ a.entry.score)).map (fun e => e.entry.score)) ∧
      Dedup.merge_memory_group
        (grp.filterMap (fun i => (Dedup.attach_embeddings ms)[i]?)) ∈
        Dedup.deduplicate_memories_by_similarity ms θ none) ∧
    (∀ (i : Nat) (hi : i < ms.length),
      (∀ j < ms.length, j ≠ i →
        Dedup.sim_matrix ((Dedup.attach_embeddings ms).map (fun e => e.embedding))
          i j < θ) →
      ms.get ⟨i, hi⟩ ∈ Dedup.deduplicate_memories_by_similarity ms θ none) := by
  have hlen : (Dedup.attach_embeddings ms).length = ms.length := by
    simp [Dedup.attach_embeddings]
  obtain ⟨hdisj, hprops⟩ := find_duplicate_groups_props (Dedup.attach_embeddings ms) θ
  refine ⟨?_, ?_, ?_⟩
  · intro i j hne
    rw [in_same_duplicate_group_iff _ _ _ _ hne, hlen]
  · intro grp hgrp
    obtain ⟨hnd, hlen2, hbound⟩ := hprops grp hgrp
    have hne2 := group_entries_ne_nil (Dedup.attach_embeddings ms) hlen2 hbound
    obtain ⟨b, hb, hmax, hmem, hscore⟩ := merge_memory_group_spec _ hne2
    refine ⟨⟨b, hb, hmax, hmem⟩, hscore, ?_⟩
    have hms1 : ¬ ms.length ≤ 1 := by
      have hgne : grp ≠ [] := by
        intro h
        rw [h] at hlen2
        simp at hlen2
      obtain ⟨a, ha⟩ := List.exists_mem_of_ne_nil grp hgne
      obtain ⟨c, hc, hca⟩ := exists_mem_ne hlen2 hnd a
      have h1 := hbound a ha
      have h2 := hbound c hc
      rw [hlen] at h1 h2
      omega
    unfold Dedup.deduplicate_memories_by_similarity
    rw [if_neg hms1]
    dsimp only
    apply (List.mem_insertionSort _).2
    apply List.mem_append_left
    exact merge_group_loop_mem _ _ [] [] hdisj (by simp) grp hgrp
  · intro i hi hfar
    by_cases hms1 : ms.length ≤ 1
    · unfold Dedup.deduplicate_memories_by_similarity
      rw [if_pos hms1]
      exact List.get_mem ms _ _
    · unfold Dedup.deduplicate_memories_by_similarity
      rw [if_neg hms1]
      dsimp only
      apply (List.mem_insertionSort _).2
      apply List.mem_append_right
      have hi2 : i < (Dedup.attach_embeddings ms).length := by
        rw [hlen]
        exact hi
      have hproc : (Dedup.merge_group_loop (Dedup.attach_embeddings ms)
          (Dedup.find_duplicate_groups (Dedup.attach_embeddings ms) θ) [] []).1 =
          (Dedup.find_duplicate_groups (Dedup.attach_embeddings ms) θ).flatten := by
        rw [merge_group_loop_processed _ _ [] [] hdisj (by simp)]
        simp
      have hnotin : i ∉
          (Dedup.find_duplicate_groups (Dedup.attach_embeddings ms) θ).flatten := by
        intro hcon
        rcases List.mem_flatten.1 hcon with ⟨g, hgmem, hig⟩
        obtain ⟨hnd, hlen2, hbound⟩ := hprops g hgmem
        obtain ⟨j, hjg, hji⟩ := exists_mem_ne hlen2 hnd i
        have hsg : in_same_duplicate_group (Dedup.attach_embeddings ms) θ i j :=
          ⟨g, hgmem, hig, hjg⟩
        have hconn := (in_same_duplicate_group_iff _ _ i j
          (fun h => hji h.symm)).1 hsg
        unfold similar_connected at hconn
        rcases eqvGen_edges hconn with heq | ⟨⟨k, hk⟩, _⟩
        · exact hji heq.symm
        · rcases hk with hik | hki
          · obtain ⟨_, hk2, hik2, hsim⟩ := hik
            rw [hlen] at hk2
            exact absurd hsim (not_le.2 (hfar k hk2 (Ne.symm hik2)))
          · obtain ⟨hk2, _, hki2, hsim⟩ := hki
            rw [hlen] at hk2
            rw [sim_matrix_symm] at hsim
            exact absurd hsim (not_le.2 (hfar k hk2 hki2))
      refine List.mem_map.2
        ⟨(i, (Dedup.attach_embeddings ms).get ⟨i, hi2⟩), ?_, ?_⟩
      · apply List.mem_filter.2
        constructor
        · apply List.mk_mem_enum_iff_getElem?.2
          rw [List.getElem?_eq_getElem hi2, List.get_eq_getElem]
        · rw [decide_eq_true_eq]
          show i ∉ (Dedup.merge_group_loop (Dedup.attach_embeddings ms)
            (Dedup.find_duplicate_groups (Dedup.attach_embeddings ms) θ) [] []).1
          rw [hproc]
          exact hnotin
      · show ((Dedup.attach_embeddings ms).get ⟨i, hi2⟩).entry = ms.get ⟨i, hi⟩
        unfold Dedup.attach_embeddings
        simp [List.get_eq_getElem]

/-- Witness for C6: in the three-memory example the distractor C, below the
0.85 threshold with both other memories, passes through the deduplication
standalone and appears in the output. -/
theorem deduplicate_groups_and_scores_witness :
    memDupC ∈ Dedup.deduplicate_memories_by_similarity dupExample 0.85 none := by
  have hembs : (Dedup.attach_embeddings dupExample).map (fun e => e.embedding) =
      [some [(1:ℝ), 0], some [(1:ℝ), 0], some [(0:ℝ), 1]] := by
    simp [Dedup.attach_embeddings, dupExample, memDupA, memDupB, memDupC,
      Dedup.get_memory_embedding]
  have hsim : ∀ j < dupExample.length, j ≠ 2 →
      Dedup.sim_matrix
        ((Dedup.attach_embeddings dupExample).map (fun e => e.embedding)) 2 j <
        (0.85 : ℝ) := by
    intro j hj hne
    rw [hembs]
    have hj3 : j < 3 := by simpa [dupExample] using hj
    interval_cases j
    · norm_num [Dedup.sim_matrix, pair_similarity_orth_eval]
    · norm_num [Dedup.sim_matrix, pair_similarity_orth_eval]
    · exact absurd rfl hne
  have h2 : (2 : Nat) < dupExample.length := by simp [dupExample]
  exact (deduplicate_groups_and_scores dupExample 0.85).2.2 2 h2 hsim

end MemoryGraph
